import Mathlib

/-!
Verification of the HAPOD orchestration code of the `dune-gdt-demos` repository
(`hapod/cellmodel/wrapper.py`, `boltzmann/wrapper.py`, `cellmodel_solve_with_deim.py`)
against its natural-language specification.

The Python source is shallowly embedded: pure arithmetic on Python floats is
modelled with exact rationals, vectors and the external `local_pod` primitive
are abstracted (the core only dictates *when*, *on what inputs* and *with which
flags and tolerances* the primitive is invoked, so the primitive is a function
parameter and every invocation is recorded in an event trace), and MPI
collectives are modelled by explicit indexed state.  Library functions of the
repository that are not part of the provided sources (modules `hapod.hapod`,
`hapod.mpi`) are modelled from the specification text; each such definition
carries a doc comment starting with `Modelled from the spec:`.
-/

namespace HapodVerif

/-! ### Chunk statistics

Embedding of `solver_statistics` (`hapod/cellmodel/wrapper.py`, lines 2073-2079)
and the identical `get_num_chunks_and_num_timesteps`
(`boltzmann/wrapper.py`, lines 928-934).  Python floats are modelled as `ℚ`;
`math.ceil` is `Int.ceil`.  The two `assert` statements are rendered by
returning `none` when either assertion fails. -/

/-- `num_time_steps = math.ceil(t_end / dt) + 1.0`. -/
def num_time_steps (t_end dt : ℚ) : ℤ :=
  ⌈t_end / dt⌉ + 1

/-- `num_chunks = int(math.ceil(num_time_steps / chunk_size))`. -/
def num_chunks (t_end dt : ℚ) (chunk_size : ℕ) : ℤ :=
  ⌈(num_time_steps t_end dt : ℚ) / (chunk_size : ℚ)⌉

/-- `last_chunk_size = num_time_steps - chunk_size * (num_chunks - 1)`. -/
def last_chunk_size (t_end dt : ℚ) (chunk_size : ℕ) : ℤ :=
  num_time_steps t_end dt - chunk_size * (num_chunks t_end dt chunk_size - 1)

/-- `solver_statistics(t_end, dt, chunk_size)`: returns
`(num_chunks, num_time_steps)`; the two `assert`s (`num_chunks >= 2` and
`1 <= last_chunk_size <= chunk_size`) become the `none` branch. -/
def solver_statistics (t_end dt : ℚ) (chunk_size : ℕ) : Option (ℤ × ℤ) :=
  if 2 ≤ num_chunks t_end dt chunk_size ∧
      1 ≤ last_chunk_size t_end dt chunk_size ∧
      last_chunk_size t_end dt chunk_size ≤ chunk_size then
    some (num_chunks t_end dt chunk_size, num_time_steps t_end dt)
  else
    none

/-! ### Tolerance allocation -/

/-- Modelled from the spec: the Tolerance Allocator (`HapodParameters` in module
`hapod.hapod`, which is code of this repository not included under `src/`; only
its call sites are in the sources).  From `(tree_depth, epsilon_ast, omega)` it
derives per-level truncation budgets; by the quadrature (sum-of-squares)
composition rule of the spec, the `tree_depth - 1` non-root levels each receive
squared budget `epsilon_ast^2 * (1 - omega^2) / (tree_depth - 1)` and the root
level receives `(omega * epsilon_ast)^2`.  We state the budgets in squared form
so that the development stays in `ℚ`: the composition rule compares the square
root of the sum of squared per-level budgets with `epsilon_ast`, which is
equivalent to comparing the sum of squares with `epsilon_ast^2`. -/
def levelToleranceSq (tree_depth : ℕ) (epsilon_ast omega : ℚ) (i : ℕ) : ℚ :=
  if i = tree_depth - 1 then (omega * epsilon_ast) ^ 2
  else epsilon_ast ^ 2 * (1 - omega ^ 2) / ((tree_depth : ℚ) - 1)

/-! ### `CellModel.next_time_step`

Embedding of `CellModel.next_time_step` (`hapod/cellmodel/wrapper.py`,
lines 991-1059).  The three Newton solves (pfield, ofield, stokes) are external
numerics; they are abstracted into the function parameter `step`.  Only the
time logic is modelled: the early-return branch
`if t > self.t_end - 1e-14: return (None, {"t": self.t_end})` and the
time update `actual_dt = min(self.dt, self.t_end - t); t += actual_dt`. -/

/-- `CellModel.next_time_step(U_last, t)`: returns the pair of the new solution
(`none` when the final time has been reached) and the reported time. -/
def next_time_step {α : Type} (step : α → ℚ → α) (t_end dt : ℚ)
    (U_last : α) (t : ℚ) : Option α × ℚ :=
  if t_end - 1 / 10 ^ 14 < t then
    (none, t_end)
  else
    (some (step U_last t), t + min dt (t_end - t))

/-! ### The binary-tree HAPOD orchestration

Embedding of `binary_tree_hapod` and its helper functions
(`hapod/cellmodel/wrapper.py`, lines 2082-2253) for one reduction slot `k`.
Vectors are abstract (`α`); the external `local_pod` primitive is a function
parameter of type `Pod α`, and the rescaling `vecs.scal(svals)` is the abstract
parameter `scal`.  Every `local_pod` invocation is recorded as a `PodEvent`. -/

/-- `HapodParameters(tree_depth, epsilon_ast, omega)` — the immutable per-slot
parameter tuple built in `BinaryTreeHapodResults.__init__`.  Its tolerance
schedule lives inside the external `local_pod` primitive and is not needed
here; the orchestration only passes the tuple along. -/
structure HapodParameters where
  treeDepth : ℕ
  epsilonAst : ℚ
  omega : ℚ
deriving DecidableEq

/-- The `inputs` argument of `local_pod`: either one batch of vectors or
`[[modes, svals], new_batch]` (a prior basis with its singular values plus a
new batch). -/
inductive PodInputs (α : Type) where
  | single (vecs : List α)
  | withPrior (modes : List α) (svals : List ℚ) (newVecs : List α)
deriving DecidableEq

/-- The number of input vectors handed to a `local_pod` call (the quantity the
source tracks in `max_vectors_before_pod`): `len(vecs)` for a single batch,
`len(modes) + len(new_batch)` for a merge. -/
def PodInputs.inputCount {α : Type} : PodInputs α → ℕ
  | .single v => v.length
  | .withPrior m _ g => m.length + g.length

/-- The batch of newly gathered vectors of a `local_pod` call. -/
def PodInputs.newBatch {α : Type} : PodInputs α → List α
  | .single v => v
  | .withPrior _ _ g => g

/-- Abstraction of the external `local_pod` primitive
(`local_pod(inputs, num_snaps_in_leafs, parameters, orth_tol,
incremental_gramian, root_of_tree)` of module `hapod.hapod`): a deterministic
function of its arguments returning a basis and matching singular values.
The `product` and `method` arguments are constant throughout a run and are
omitted. -/
abbrev Pod (α : Type) :=
  PodInputs α → ℕ → HapodParameters → ℚ → Bool → Bool → List α × List ℚ

/-- Identifies where in the pipeline a `local_pod` invocation happened:
stage-1 process-local POD, stage-2 node-level merge, or a merge inside the
cross-node tree reduction. -/
inductive PodStage where
  | procLocal (chunk node rank : ℕ)
  | nodeMerge (chunk node : ℕ)
  | treeMerge (level : ℕ)
deriving DecidableEq

/-- A recorded `local_pod` invocation: the full argument list, the root rank of
the communicator used for the surrounding gather/merge, and the returned
basis and singular values. -/
structure PodEvent (α : Type) where
  stage : PodStage
  inputs : PodInputs α
  numSnapsInLeafs : ℕ
  params : HapodParameters
  orthTol : ℚ
  incrementalGramian : Bool
  rootOfTree : Bool
  root : ℕ
  outModes : List α
  outSvals : List ℚ
deriving DecidableEq

/-- Input-vector count of a recorded invocation. -/
def PodEvent.inputCount {α : Type} (e : PodEvent α) : ℕ := e.inputs.inputCount

/-- Output basis size of a recorded invocation. -/
def PodEvent.outCount {α : Type} (e : PodEvent α) : ℕ := e.outModes.length

/-- The static configuration of one `binary_tree_hapod` run for one slot:
`numNodes` processor groups (= `mpi.size_rank_group[root]`, the participants of
the cross-node tree), `sizeProc` ranks per group (= `mpi.size_proc`), the slot
index `slot` (= `k`), the snapshot batches `vecs chunk node rank` produced for
this slot, and the arguments `tolerances`/`orth_tol`/`final_orth_tol`/
`incremental_gramian` handed to `binary_tree_hapod`. -/
structure Cfg (α : Type) where
  numNodes : ℕ
  sizeProc : ℕ
  slot : ℕ
  vecs : ℕ → ℕ → ℕ → List α
  params : HapodParameters
  orthTol : ℚ
  finalOrthTol : ℚ
  incrementalGramian : Bool

/-- `root_rank = k % mpi.size_proc` — the in-group rank selected as group root
for slot `k` (wrapper.py lines 2211, 2218, 2236). -/
def Cfg.rootRank {α : Type} (cfg : Cfg α) : ℕ := cfg.slot % cfg.sizeProc

/-- The mutable per-rank accumulator `BinaryTreeHapodResults` (wrapper.py
lines 2082-2097), restricted to the fields the orchestration reads and
writes.  `modes = None` is modelled as the empty list (the `None` value is
never read: the first chunk takes the single-input branch). -/
structure RState (α : Type) where
  modes : List α
  svals : List ℚ
  maxLocalModes : ℕ
  maxVectorsBeforePod : ℕ
  totalNumSnapshots : ℕ
  gatheredModes : List α
  numSnaps : ℕ
deriving DecidableEq

/-- Fresh accumulator (all counters zero, all lists empty). -/
def RState.init {α : Type} : RState α := ⟨[], [], 0, 0, 0, [], 0⟩

/-- Sum of `f 0, ..., f (n-1)` as a list sum (used for gathered snapshot
counts). -/
def sumOver (n : ℕ) (f : ℕ → ℕ) : ℕ := ((List.range n).map f).sum

/-- Maximum of a list of naturals, `0` for the empty list (the take-the-max
reduction of the end-of-run gather). -/
def listMax (l : List ℕ) : ℕ := l.foldr max 0

/-- `pods_on_processor_cores_in_binary_tree_hapod` (wrapper.py lines
2105-2118), per-rank part: the stage-1 `local_pod` on the rank's own chunk
vectors, the diagnostics updates, and the rescaling `vecs.scal(svals)`.  The
concluding collective `gather_on_root_rank` is modelled separately; this
function returns the updated state, the rescaled modes and the snapshot count
the rank contributes to the gather, and the recorded invocation. -/
def procCorePod {α : Type} (pod : Pod α) (scal : α → ℚ → α) (cfg : Cfg α)
    (c n j : ℕ) (r : RState α) : RState α × List α × ℕ × PodEvent α :=
  let myVecs := cfg.vecs c n j
  let snapsOnRank := myVecs.length
  let r1 := { r with maxVectorsBeforePod := max r.maxVectorsBeforePod snapsOnRank }
  let out := pod (.single myVecs) snapsOnRank cfg.params cfg.orthTol false false
  let r2 := { r1 with maxLocalModes := max r1.maxLocalModes out.1.length }
  let scaled := List.zipWith scal out.1 out.2
  (r2, scaled, snapsOnRank,
   { stage := .procLocal c n j
     inputs := .single myVecs
     numSnapsInLeafs := snapsOnRank
     params := cfg.params
     orthTol := cfg.orthTol
     incrementalGramian := false
     rootOfTree := false
     root := cfg.rootRank
     outModes := out.1
     outSvals := out.2 })

/-- Modelled from the spec: `gather_on_root_rank` (module `hapod.mpi`, code of
this repository not under `src/`).  On the root of the processor group it
returns the concatenation of all ranks' rescaled bases together with the *sum*
of the per-rank snapshot counts. -/
def gatherOnRootRank {α : Type} (sizeProc : ℕ) (scaledOf : ℕ → List α)
    (snapsOf : ℕ → ℕ) : List α × ℕ :=
  ((List.range sizeProc).flatMap scaledOf, sumOver sizeProc snapsOf)

/-- `pod_on_node_in_binary_tree_hapod` (wrapper.py lines 2122-2151): on the
group root, fold the gathered snapshot count into `total_num_snapshots`, then
either run a plain `local_pod` over the gathered modes (first chunk) or merge
`[[modes, svals], gathered_modes]` (later chunks); the merge on the last chunk
is the tree root iff `mpi.size_rank_group[root] == 1`, in which case it uses
`final_orth_tol`. -/
def podOnNode {α : Type} (pod : Pod α) (cfg : Cfg α) (c n : ℕ)
    (isFirstChunk isLastChunk : Bool) (sizeRankGroup : ℕ) (r : RState α) :
    RState α × PodEvent α :=
  let r0 := { r with totalNumSnapshots := r.totalNumSnapshots + r.numSnaps }
  if isFirstChunk then
    let r1 := { r0 with
      maxVectorsBeforePod := max r0.maxVectorsBeforePod r0.gatheredModes.length }
    let out := pod (.single r0.gatheredModes) r0.numSnaps cfg.params cfg.orthTol
      false false
    ({ r1 with modes := out.1, svals := out.2
               maxLocalModes := max r1.maxLocalModes out.1.length },
     { stage := .nodeMerge c n
       inputs := .single r0.gatheredModes
       numSnapsInLeafs := r0.numSnaps
       params := cfg.params
       orthTol := cfg.orthTol
       incrementalGramian := false
       rootOfTree := false
       root := cfg.rootRank
       outModes := out.1
       outSvals := out.2 })
  else
    let r1 := { r0 with
      maxVectorsBeforePod :=
        max r0.maxVectorsBeforePod (r0.modes.length + r0.gatheredModes.length) }
    let rot := isLastChunk && (sizeRankGroup == 1)
    let tol := if rot then cfg.finalOrthTol else cfg.orthTol
    let out := pod (.withPrior r0.modes r0.svals r0.gatheredModes)
      r0.totalNumSnapshots cfg.params tol cfg.incrementalGramian rot
    ({ r1 with modes := out.1, svals := out.2
               maxLocalModes := max r1.maxLocalModes out.1.length },
     { stage := .nodeMerge c n
       inputs := .withPrior r0.modes r0.svals r0.gatheredModes
       numSnapsInLeafs := r0.totalNumSnapshots
       params := cfg.params
       orthTol := tol
       incrementalGramian := cfg.incrementalGramian
       rootOfTree := rot
       root := cfg.rootRank
       outModes := out.1
       outSvals := out.2 })

/-- The distributed state: one `BinaryTreeHapodResults` accumulator per world
rank `(node, rank-in-group)`. -/
abbrev StateMap (α : Type) := ℕ → ℕ → RState α

/-- One iteration of the chunk loop of `binary_tree_hapod` (wrapper.py lines
2206-2233) for one slot: the stage-1 POD on every rank of every node, the
gather onto each node's group root (`rank_proc == k % size_proc`), and the
node-level merge on that root with `is_first_chunk = (chunk_index == 0)` and
`is_last_chunk = done()`, i.e. `c == numChunks - 1`. -/
def chunkStep {α : Type} (pod : Pod α) (scal : α → ℚ → α) (cfg : Cfg α)
    (numChunks c : ℕ) (st : StateMap α) : StateMap α × List (PodEvent α) :=
  let root := cfg.rootRank
  let stage1 := fun n j => procCorePod pod scal cfg c n j (st n j)
  let st1 : StateMap α := fun n j => (stage1 n j).1
  let evs1 := (List.range cfg.numNodes).flatMap fun n =>
    (List.range cfg.sizeProc).map fun j => (stage1 n j).2.2.2
  let gath := fun n =>
    gatherOnRootRank cfg.sizeProc (fun j => (stage1 n j).2.1)
      (fun j => (stage1 n j).2.2.1)
  let st2 : StateMap α := fun n j =>
    if j = root then
      { st1 n j with gatheredModes := (gath n).1, numSnaps := (gath n).2 }
    else st1 n j
  let nodePod := fun n =>
    podOnNode pod cfg c n (c == 0) (c == numChunks - 1) cfg.numNodes (st2 n root)
  let st3 : StateMap α := fun n j => if j = root then (nodePod n).1 else st2 n j
  let evs2 := (List.range cfg.numNodes).map fun n => (nodePod n).2
  (st3, evs1 ++ evs2)

/-- The chunk loop after `c` chunks: `for chunk in chunk_generator` of
wrapper.py lines 2207-2233, unrolled chunk by chunk. -/
def runChunksUpTo {α : Type} (pod : Pod α) (scal : α → ℚ → α) (cfg : Cfg α)
    (numChunks : ℕ) : ℕ → StateMap α × List (PodEvent α)
  | 0 => (fun _ _ => RState.init, [])
  | c + 1 =>
    let prev := runChunksUpTo pod scal cfg numChunks c
    let stepped := chunkStep pod scal cfg numChunks c prev.1
    (stepped.1, prev.2 ++ stepped.2)

/-- The running `(modes, svals, total_num_snapshots)` of one participant of the
cross-node tree reduction. -/
structure NodeSt (α : Type) where
  modes : List α
  svals : List ℚ
  total : ℕ
deriving DecidableEq

/-- Modelled from the spec: one pairing level of the cross-node binary tree of
`binary_tree_hapod_over_ranks` (module `hapod.hapod`, code of this repository
not under `src/`).  Adjacent participants are paired; the lower-id partner of
each pair merges its running `(modes, svals)` with the partner's modes rescaled
by the partner's singular values, via `local_pod` with the orthogonality
tolerance that was passed to the tree reduction; `isRootMerge` flags the final
merge of the whole tree (a level of exactly two participants). -/
def treeLevel {α : Type} (pod : Pod α) (scal : α → ℚ → α) (cfg : Cfg α)
    (orthTol : ℚ) (isRootMerge : Bool) (level : ℕ) :
    List (NodeSt α) → List (NodeSt α) × List (PodEvent α)
  | [] => ([], [])
  | [x] => ([x], [])
  | x :: y :: rest =>
    let scaledPartner := List.zipWith scal y.modes y.svals
    let total := x.total + y.total
    let out := pod (.withPrior x.modes x.svals scaledPartner) total cfg.params
      orthTol cfg.incrementalGramian isRootMerge
    let restOut := treeLevel pod scal cfg orthTol isRootMerge level rest
    (⟨out.1, out.2, total⟩ :: restOut.1,
     { stage := .treeMerge level
       inputs := .withPrior x.modes x.svals scaledPartner
       numSnapsInLeafs := total
       params := cfg.params
       orthTol := orthTol
       incrementalGramian := cfg.incrementalGramian
       rootOfTree := isRootMerge
       root := cfg.rootRank
       outModes := out.1
       outSvals := out.2 } :: restOut.2)

/-- Modelled from the spec: the level recursion of
`binary_tree_hapod_over_ranks`; `fuel` bounds the number of levels (supplying
the participant count always suffices, as every level with at least two
participants shrinks the list). -/
def treeReduce {α : Type} (pod : Pod α) (scal : α → ℚ → α) (cfg : Cfg α)
    (orthTol : ℚ) (lastHapod : Bool) :
    ℕ → ℕ → List (NodeSt α) → NodeSt α × List (PodEvent α)
  | 0, _, xs => (xs.headD ⟨[], [], 0⟩, [])
  | fuel + 1, level, xs =>
    if xs.length ≤ 1 then (xs.headD ⟨[], [], 0⟩, [])
    else
      let lv := treeLevel pod scal cfg orthTol (lastHapod && (xs.length == 2))
        level xs
      let rest := treeReduce pod scal cfg orthTol lastHapod fuel (level + 1) lv.1
      (rest.1, lv.2 ++ rest.2)

/-- Modelled from the spec: `binary_tree_hapod_over_ranks(comm, modes,
total_num_snapshots, parameters, svals, last_hapod, incremental_gramian,
product, orth_tol, method)` (module `hapod.hapod`, code of this repository not
under `src/`).  Returns the merged `(modes, svals, total)` of the global tree
root together with the maximum number of input vectors handed to any of its
internal `local_pod` calls, the maximum resulting basis size, and the recorded
invocations. -/
def binary_tree_hapod_over_ranks {α : Type} (pod : Pod α) (scal : α → ℚ → α)
    (cfg : Cfg α) (orthTol : ℚ) (lastHapod : Bool)
    (participants : List (NodeSt α)) : NodeSt α × ℕ × ℕ × List (PodEvent α) :=
  let res := treeReduce pod scal cfg orthTol lastHapod participants.length 0
    participants
  (res.1, listMax (res.2.map PodEvent.inputCount),
   listMax (res.2.map PodEvent.outCount), res.2)

/-- `final_hapod_in_binary_tree_hapod` (wrapper.py lines 2154-2167): the
cross-node tree reduction over the per-node group roots, invoked with
`last_hapod=True` and `orth_tol=r.final_orth_tol`; the merged result and the
returned diagnostics are folded into the state of the global tree root
(node 0, by the lower-rank-id tie-break of the spec). -/
def finalHapod {α : Type} (pod : Pod α) (scal : α → ℚ → α) (cfg : Cfg α)
    (st : StateMap α) : StateMap α × List (PodEvent α) :=
  let root := cfg.rootRank
  let participants := (List.range cfg.numNodes).map fun n =>
    NodeSt.mk (st n root).modes (st n root).svals (st n root).totalNumSnapshots
  let res := binary_tree_hapod_over_ranks pod scal cfg cfg.finalOrthTol true
    participants
  let st' : StateMap α := fun n j =>
    if n = 0 ∧ j = root then
      { st 0 root with
        modes := res.1.modes
        svals := res.1.svals
        totalNumSnapshots := res.1.total
        maxVectorsBeforePod := max (st 0 root).maxVectorsBeforePod res.2.1
        maxLocalModes := max (st 0 root).maxLocalModes res.2.2.1 }
    else st n j
  (st', res.2.2.2)

/-- The full `binary_tree_hapod` body for one slot (chunk loop followed by the
cross-node tree reduction), returning the final distributed state and the
trace of all `local_pod` invocations. -/
def binary_tree_hapod_run {α : Type} (pod : Pod α) (scal : α → ℚ → α)
    (cfg : Cfg α) (numChunks : ℕ) : StateMap α × List (PodEvent α) :=
  let loop := runChunksUpTo pod scal cfg numChunks numChunks
  let fin := finalHapod pod scal cfg loop.1
  (fin.1, loop.2 ++ fin.2)

/-- All world ranks `(node, rank-in-group)` participating in
`mpi.comm_world`. -/
def worldRanks {α : Type} (cfg : Cfg α) : List (ℕ × ℕ) :=
  (List.range cfg.numNodes).flatMap fun n =>
    (List.range cfg.sizeProc).map fun j => (n, j)

/-- The per-slot diagnostics reported on world rank 0 at the end of
`binary_tree_hapod`. -/
structure FinalReport where
  maxVectorsBeforePod : ℕ
  maxLocalModes : ℕ
  totalNumSnapshots : ℕ
deriving DecidableEq

/-- The end-of-run gather of `binary_tree_hapod` (wrapper.py lines 2244-2251):
each diagnostic — including `total_num_snapshots` — is gathered from every
world rank onto world rank 0 and reduced with `max` there. -/
def gatherMaxReport {α : Type} (cfg : Cfg α) (st : StateMap α) : FinalReport :=
  { maxVectorsBeforePod :=
      listMax ((worldRanks cfg).map fun p => (st p.1 p.2).maxVectorsBeforePod)
    maxLocalModes :=
      listMax ((worldRanks cfg).map fun p => (st p.1 p.2).maxLocalModes)
    totalNumSnapshots :=
      listMax ((worldRanks cfg).map fun p => (st p.1 p.2).totalNumSnapshots) }

/-- A rejected configuration (failed `assert` / `ConfigurationError`). -/
inductive ConfigurationError where
  | configurationError
deriving DecidableEq

/-- The reduction entry point: `binary_tree_hapod` of
`cellmodel_solve_with_deim.py` (lines 117-125) first derives `num_chunks`
through the solver statistics — whose `assert num_chunks >= 2` aborts the run
before the chunk loop — and only then executes the chunk loop and the tree
reduction (modelled here by the wrapper.py variant of the loop).  A failed
assertion is modelled as `ConfigurationError`; no `local_pod` invocation is
recorded in that case. -/
def binary_tree_hapod_main {α : Type} (pod : Pod α) (scal : α → ℚ → α)
    (cfg : Cfg α) (t_end dt : ℚ) (chunk_size : ℕ) :
    Except ConfigurationError FinalReport × List (PodEvent α) :=
  match solver_statistics t_end dt chunk_size with
  | none => (.error .configurationError, [])
  | some nc_nts =>
    let run := binary_tree_hapod_run pod scal cfg nc_nts.1.toNat
    (.ok (gatherMaxReport cfg run.1), run.2)

/-! ### Closed forms of the run, used to state the trace properties -/

/-- The stage-1 `local_pod` output for chunk `c` on rank `j` of node `n`; it
does not depend on any accumulated state. -/
def stage1Out {α : Type} (pod : Pod α) (cfg : Cfg α) (c n j : ℕ) :
    List α × List ℚ :=
  pod (.single (cfg.vecs c n j)) (cfg.vecs c n j).length cfg.params cfg.orthTol
    false false

/-- The stage-1 output of rank `j`, rescaled by its singular values — exactly
what rank `j` contributes to the gather. -/
def stage1Scaled {α : Type} (pod : Pod α) (scal : α → ℚ → α) (cfg : Cfg α)
    (c n j : ℕ) : List α :=
  List.zipWith scal (stage1Out pod cfg c n j).1 (stage1Out pod cfg c n j).2

/-- The concatenation gathered on node `n`'s group root in chunk `c`. -/
def gatheredAt {α : Type} (pod : Pod α) (scal : α → ℚ → α) (cfg : Cfg α)
    (c n : ℕ) : List α :=
  (List.range cfg.sizeProc).flatMap fun j => stage1Scaled pod scal cfg c n j

/-- The summed snapshot count gathered on node `n`'s group root in chunk
`c`. -/
def numSnapsAt {α : Type} (cfg : Cfg α) (c n : ℕ) : ℕ :=
  sumOver cfg.sizeProc fun j => (cfg.vecs c n j).length

/-- Closed form of the group root's running `(modes, svals,
total_num_snapshots)` on node `n` after chunk `c` has been merged. -/
def nodeStateAt {α : Type} (pod : Pod α) (scal : α → ℚ → α) (cfg : Cfg α)
    (numChunks n : ℕ) : ℕ → List α × List ℚ × ℕ
  | 0 =>
    let out := pod (.single (gatheredAt pod scal cfg 0 n)) (numSnapsAt cfg 0 n)
      cfg.params cfg.orthTol false false
    (out.1, out.2, numSnapsAt cfg 0 n)
  | c + 1 =>
    let prev := nodeStateAt pod scal cfg numChunks n c
    let total := prev.2.2 + numSnapsAt cfg (c + 1) n
    let rot := ((c + 1 : ℕ) == numChunks - 1) && (cfg.numNodes == 1)
    let tol := if rot then cfg.finalOrthTol else cfg.orthTol
    let out := pod (.withPrior prev.1 prev.2.1 (gatheredAt pod scal cfg (c + 1) n))
      total cfg.params tol cfg.incrementalGramian rot
    (out.1, out.2, total)

/-- Closed form of the stage-1 invocation recorded for chunk `c` on rank `j`
of node `n`. -/
def procLocalEventAt {α : Type} (pod : Pod α) (cfg : Cfg α) (c n j : ℕ) :
    PodEvent α :=
  { stage := .procLocal c n j
    inputs := .single (cfg.vecs c n j)
    numSnapsInLeafs := (cfg.vecs c n j).length
    params := cfg.params
    orthTol := cfg.orthTol
    incrementalGramian := false
    rootOfTree := false
    root := cfg.rootRank
    outModes := (stage1Out pod cfg c n j).1
    outSvals := (stage1Out pod cfg c n j).2 }

/-- Closed form of the node-level merge invocation recorded for chunk `c` on
node `n`'s group root. -/
def nodeMergeEventAt {α : Type} (pod : Pod α) (scal : α → ℚ → α) (cfg : Cfg α)
    (numChunks n : ℕ) : ℕ → PodEvent α
  | 0 =>
    { stage := .nodeMerge 0 n
      inputs := .single (gatheredAt pod scal cfg 0 n)
      numSnapsInLeafs := numSnapsAt cfg 0 n
      params := cfg.params
      orthTol := cfg.orthTol
      incrementalGramian := false
      rootOfTree := false
      root := cfg.rootRank
      outModes := (nodeStateAt pod scal cfg numChunks n 0).1
      outSvals := (nodeStateAt pod scal cfg numChunks n 0).2.1 }
  | c + 1 =>
    { stage := .nodeMerge (c + 1) n
      inputs := .withPrior (nodeStateAt pod scal cfg numChunks n c).1
        (nodeStateAt pod scal cfg numChunks n c).2.1
        (gatheredAt pod scal cfg (c + 1) n)
      numSnapsInLeafs := (nodeStateAt pod scal cfg numChunks n (c + 1)).2.2
      params := cfg.params
      orthTol :=
        if ((c + 1 : ℕ) == numChunks - 1) && (cfg.numNodes == 1) then
          cfg.finalOrthTol
        else cfg.orthTol
      incrementalGramian := cfg.incrementalGramian
      rootOfTree := ((c + 1 : ℕ) == numChunks - 1) && (cfg.numNodes == 1)
      root := cfg.rootRank
      outModes := (nodeStateAt pod scal cfg numChunks n (c + 1)).1
      outSvals := (nodeStateAt pod scal cfg numChunks n (c + 1)).2.1 }

/-- Closed form of the invocations recorded during the chunk-`c` iteration of
the chunk loop. -/
def chunkTraceAt {α : Type} (pod : Pod α) (scal : α → ℚ → α) (cfg : Cfg α)
    (numChunks c : ℕ) : List (PodEvent α) :=
  ((List.range cfg.numNodes).flatMap fun n =>
    (List.range cfg.sizeProc).map fun j => procLocalEventAt pod cfg c n j) ++
  ((List.range cfg.numNodes).map fun n =>
    nodeMergeEventAt pod scal cfg numChunks n c)

/-- Concrete abstract-vector type, POD, rescaling and configuration used for
closed witnesses and counterexamples: the POD keeps the new batch as basis with
unit singular values. -/
def podW : Pod ℕ := fun inputs _ _ _ _ _ =>
  (inputs.newBatch, inputs.newBatch.map fun _ => (1 : ℚ))

/-- Trivial rescaling for witnesses (scaling does not change the vector id). -/
def scalW : ℕ → ℚ → ℕ := fun a _ => a

/-- Witness configuration: three nodes with one rank each, two chunks, slot 0,
one snapshot per rank per chunk, distinct regular and final orthogonality
tolerances. -/
def cfgW : Cfg ℕ :=
  { numNodes := 3
    sizeProc := 1
    slot := 0
    vecs := fun c n _ => [c * 10 + n]
    params := ⟨5, 1, 1⟩
    orthTol := 1
    finalOrthTol := 2
    incrementalGramian := false }

/-! ## Theorems -/

/-! ### C1: chunk statistics -/

theorem num_time_steps_eval : num_time_steps 1 (1/10) = 11 := by
  unfold num_time_steps
  rw [show (1 : ℚ) / (1/10) = 10 by norm_num]
  norm_num

theorem num_chunks_eval : num_chunks 1 (1/10) 3 = 4 := by
  unfold num_chunks
  rw [num_time_steps_eval]
  rw [show (((11 : ℤ) : ℚ) / ((3 : ℕ) : ℚ)) = 11 / 3 by norm_num]
  rw [Int.ceil_eq_iff] <;> norm_num

theorem last_chunk_size_eval : last_chunk_size 1 (1/10) 3 = 2 := by
  unfold last_chunk_size
  rw [num_time_steps_eval, num_chunks_eval]
  norm_num

theorem solver_statistics_eval : solver_statistics 1 (1/10) 3 = some (4, 11) := by
  unfold solver_statistics
  rw [if_pos]
  · rw [num_chunks_eval, num_time_steps_eval]
  · refine ⟨?_, ?_, ?_⟩ <;>
      simp only [num_chunks_eval, last_chunk_size_eval] <;> norm_num

/-- **C1** For every configuration accepted by the chunk-statistics computation
(`solver_statistics`), the number of chunks equals
`ceil((ceil(t_end/dt)+1)/chunk_size)` and the last chunk size equals
`(ceil(t_end/dt)+1) - chunk_size*(num_chunks-1)` with
`1 ≤ last_chunk_size ≤ chunk_size`; in particular, for
`t_end = 1`, `dt = 1/10`, `chunk_size = 3` it returns `num_time_steps = 11`,
`num_chunks = 4`, and last chunk size `2`. -/
theorem solver_statistics_spec (t_end dt : ℚ) (chunk_size : ℕ) (nc nts : ℤ)
    (h : solver_statistics t_end dt chunk_size = some (nc, nts)) :
    nts = ⌈t_end / dt⌉ + 1 ∧
    nc = ⌈(nts : ℚ) / (chunk_size : ℚ)⌉ ∧
    1 ≤ nts - chunk_size * (nc - 1) ∧
    nts - chunk_size * (nc - 1) ≤ chunk_size ∧
    solver_statistics 1 (1/10) 3 = some (4, 11) ∧
    last_chunk_size 1 (1/10) 3 = 2 := by
  unfold solver_statistics at h
  split_ifs at h with hcond
  · simp only [Option.some.injEq, Prod.mk.injEq] at h
    obtain ⟨hnc, hnts⟩ := h
    obtain ⟨h1, h2, h3⟩ := hcond
    subst hnc; subst hnts
    exact ⟨rfl, rfl, h2, h3, solver_statistics_eval, last_chunk_size_eval⟩

theorem solver_statistics_spec_witness :
    (11 : ℤ) = ⌈(1 : ℚ) / (1/10)⌉ + 1 ∧
    (4 : ℤ) = ⌈((11 : ℤ) : ℚ) / ((3 : ℕ) : ℚ)⌉ ∧
    (1 : ℤ) ≤ 11 - 3 * (4 - 1) ∧ (11 : ℤ) - 3 * (4 - 1) ≤ 3 := by
  have h := solver_statistics_spec 1 (1/10) 3 4 11 solver_statistics_eval
  exact ⟨h.1, h.2.1, h.2.2.1, h.2.2.2.1⟩

/-! ### C2: rejection of configurations with fewer than two chunks -/

/-- **C2** For every `(t_end, dt, chunk_size)` whose chunk formula yields fewer
than two chunks, the reduction is rejected with an error (the failed
`assert num_chunks >= 2` of the solver statistics, modelled as
`ConfigurationError`) before any chunk is consumed and before any reduction
work starts: the run returns the error and the trace of `local_pod`
invocations is empty. -/
theorem binary_tree_hapod_rejects {α : Type} (pod : Pod α) (scal : α → ℚ → α)
    (cfg : Cfg α) (t_end dt : ℚ) (chunk_size : ℕ)
    (h : num_chunks t_end dt chunk_size < 2) :
    binary_tree_hapod_main pod scal cfg t_end dt chunk_size
      = (.error .configurationError, ([] : List (PodEvent α))) := by
  unfold binary_tree_hapod_main solver_statistics
  rw [if_neg]
  · intro hc
    exact absurd hc.1 (not_le.mpr h)

theorem num_chunks_small_eval : num_chunks 1 1 100 < 2 := by
  unfold num_chunks num_time_steps
  rw [show ((1 : ℚ) / 1) = 1 by norm_num]
  rw [show (⌈(1 : ℚ)⌉ + 1 : ℤ) = 2 by norm_num]
  rw [show (((2 : ℤ) : ℚ) / ((100 : ℕ) : ℚ)) = 1 / 50 by norm_num]
  rw [show (⌈(1 / 50 : ℚ)⌉ : ℤ) = 1 by rw [Int.ceil_eq_iff] <;> norm_num]
  norm_num

theorem binary_tree_hapod_rejects_witness :
    binary_tree_hapod_main podW scalW cfgW 1 1 100
      = (.error .configurationError, []) :=
  binary_tree_hapod_rejects podW scalW cfgW 1 1 100 num_chunks_small_eval

/-! ### C9: tolerance composition -/

/-- **C9** For all valid inputs with `tree_depth ≥ 2`, `epsilon_ast > 0` and
`omega ∈ (0,1]`, the per-level tolerance bounds derived by the Tolerance
Allocator combine under the sum-of-squares composition rule to a value less
than or equal to `epsilon_ast` (stated on squares: the sum of the squared
per-level budgets is at most `epsilon_ast ^ 2`). -/
theorem hapod_tolerances_compose (tree_depth : ℕ) (epsilon_ast omega : ℚ)
    (hd : 2 ≤ tree_depth) (he : 0 < epsilon_ast) (ho : 0 < omega)
    (ho1 : omega ≤ 1) :
    ∑ i ∈ Finset.range tree_depth, levelToleranceSq tree_depth epsilon_ast omega i
      ≤ epsilon_ast ^ 2 := by
  obtain ⟨d, rfl⟩ : ∃ d, tree_depth = d + 1 :=
    ⟨tree_depth - 1, (Nat.succ_pred_eq_of_pos (by omega)).symm⟩
  have hd1 : 1 ≤ d := by omega
  have hdQ : ((d : ℚ)) ≠ 0 := Nat.cast_ne_zero.mpr (by omega)
  rw [Finset.sum_range_succ]
  have hroot : levelToleranceSq (d + 1) epsilon_ast omega d
      = (omega * epsilon_ast) ^ 2 := by
    simp [levelToleranceSq]
  have hother : ∀ i ∈ Finset.range d,
      levelToleranceSq (d + 1) epsilon_ast omega i
        = epsilon_ast ^ 2 * (1 - omega ^ 2) / (d : ℚ) := by
    intro i hi
    have hne : i ≠ d := by
      have := Finset.mem_range.mp hi; omega
    have hsub : d + 1 - 1 = d := rfl
    simp only [levelToleranceSq, hsub, if_neg hne]
    push_cast
    ring_nf
  rw [hroot, Finset.sum_congr rfl hother, Finset.sum_const, Finset.card_range,
    nsmul_eq_mul]
  rw [mul_div_assoc, mul_comm ((d : ℚ)), mul_assoc, div_mul_cancel₀ _ hdQ]
  ring_nf
  nlinarith [sq_nonneg omega, sq_nonneg epsilon_ast]

theorem hapod_tolerances_compose_witness :
    ∑ i ∈ Finset.range 2, levelToleranceSq 2 1 1 i ≤ (1 : ℚ) ^ 2 :=
  hapod_tolerances_compose 2 1 1 (by norm_num) (by norm_num) (by norm_num)
    (by norm_num)

/-! ### C10: `next_time_step` time logic -/

/-- **C10** `CellModel.next_time_step(U_last, t, ...)` called with
`t > t_end - 1e-14` returns `None` in place of a new solution together with
reported time exactly `t_end` (performing no timestep); otherwise it advances
time by `actual_dt = min(dt, t_end - t)`, so the time it returns never exceeds
`t_end`. -/
theorem next_time_step_spec {α : Type} (step : α → ℚ → α) (t_end dt : ℚ)
    (U_last : α) (t : ℚ) :
    (t_end - 1 / 10 ^ 14 < t →
      next_time_step step t_end dt U_last t = (none, t_end)) ∧
    (¬ t_end - 1 / 10 ^ 14 < t →
      next_time_step step t_end dt U_last t
        = (some (step U_last t), t + min dt (t_end - t))) ∧
    (next_time_step step t_end dt U_last t).2 ≤ t_end := by
  refine ⟨fun h => ?_, fun h => ?_, ?_⟩
  · simp only [next_time_step, if_pos h]
  · simp only [next_time_step, if_neg h]
  · unfold next_time_step
    split_ifs with h
    · exact le_refl _
    · show t + min dt (t_end - t) ≤ t_end
      have hmin : min dt (t_end - t) ≤ t_end - t := min_le_right _ _
      linarith

theorem next_time_step_spec_witness :
    next_time_step (fun (u : ℚ) _ => u) 1 (1/10) 0 1 = (none, 1) ∧
    next_time_step (fun (u : ℚ) _ => u) 1 (1/10) 0 0
      = (some 0, 0 + min (1/10) (1 - 0)) :=
  ⟨(next_time_step_spec (fun (u : ℚ) _ => u) 1 (1/10) 0 1).1 (by norm_num),
   (next_time_step_spec (fun (u : ℚ) _ => u) 1 (1/10) 0 0).2.1 (by norm_num)⟩

/-! ### Toolkit lemmas for `listMax` and `sumOver` -/

theorem le_listMax {a : ℕ} {l : List ℕ} (h : a ∈ l) : a ≤ listMax l := by
  induction l with
  | nil => cases h
  | cons b t ih =>
    rcases List.mem_cons.mp h with rfl | h
    · exact le_max_left _ _
    · exact le_trans (ih h) (le_max_right _ _)

theorem listMax_le {l : List ℕ} {b : ℕ} (h : ∀ a ∈ l, a ≤ b) : listMax l ≤ b := by
  induction l with
  | nil => exact Nat.zero_le _
  | cons a t ih =>
    exact max_le (h a (List.mem_cons_self a t)) (ih fun x hx => h x (List.mem_cons_of_mem a hx))

theorem listMax_append (l₁ l₂ : List ℕ) :
    listMax (l₁ ++ l₂) = max (listMax l₁) (listMax l₂) := by
  induction l₁ with
  | nil => simp [listMax]
  | cons a t ih =>
    simp only [List.cons_append, listMax, List.foldr_cons] at *
    rw [ih, max_assoc]

theorem sumOver_succ (n : ℕ) (f : ℕ → ℕ) :
    sumOver (n + 1) f = sumOver n f + f n := by
  unfold sumOver
  rw [List.range_succ, List.map_append, List.sum_append]
  simp

theorem le_sumOver {i n : ℕ} (f : ℕ → ℕ) (h : i < n) : f i ≤ sumOver n f := by
  induction n with
  | zero => omega
  | succ m ih =>
    rw [sumOver_succ]
    rcases Nat.lt_succ_iff_lt_or_eq.mp h with h | rfl
    · exact le_trans (ih h) (Nat.le_add_right _ _)
    · exact Nat.le_add_left _ _

theorem sumOver_mono_len (n : ℕ) {f g : ℕ → ℕ} (h : ∀ i < n, f i ≤ g i) :
    sumOver n f ≤ sumOver n g := by
  induction n with
  | zero => exact le_refl _
  | succ m ih =>
    rw [sumOver_succ, sumOver_succ]
    exact Nat.add_le_add (ih fun i hi => h i (by omega)) (h m (by omega))

/-! ### Projections of the per-chunk step -/

theorem procCorePod_fst {α : Type} (pod : Pod α) (scal : α → ℚ → α)
    (cfg : Cfg α) (c n j : ℕ) (r : RState α) :
    (procCorePod pod scal cfg c n j r).1 =
      { r with
        maxVectorsBeforePod :=
          max r.maxVectorsBeforePod (cfg.vecs c n j).length
        maxLocalModes :=
          max r.maxLocalModes (stage1Out pod cfg c n j).1.length } := rfl

theorem procCorePod_scaled {α : Type} (pod : Pod α) (scal : α → ℚ → α)
    (cfg : Cfg α) (c n j : ℕ) (r : RState α) :
    (procCorePod pod scal cfg c n j r).2.1 = stage1Scaled pod scal cfg c n j := rfl

theorem procCorePod_snaps {α : Type} (pod : Pod α) (scal : α → ℚ → α)
    (cfg : Cfg α) (c n j : ℕ) (r : RState α) :
    (procCorePod pod scal cfg c n j r).2.2.1 = (cfg.vecs c n j).length := rfl

theorem procCorePod_event {α : Type} (pod : Pod α) (scal : α → ℚ → α)
    (cfg : Cfg α) (c n j : ℕ) (r : RState α) :
    (procCorePod pod scal cfg c n j r).2.2.2 = procLocalEventAt pod cfg c n j := rfl

theorem chunkStep_nonroot {α : Type} (pod : Pod α) (scal : α → ℚ → α)
    (cfg : Cfg α) (numChunks c : ℕ) (st : StateMap α) {n j : ℕ}
    (h : j ≠ cfg.rootRank) :
    (chunkStep pod scal cfg numChunks c st).1 n j
      = (procCorePod pod scal cfg c n j (st n j)).1 := by
  simp only [chunkStep, if_neg h]

theorem chunkStep_root {α : Type} (pod : Pod α) (scal : α → ℚ → α)
    (cfg : Cfg α) (numChunks c : ℕ) (st : StateMap α) (n : ℕ) :
    (chunkStep pod scal cfg numChunks c st).1 n cfg.rootRank
      = (podOnNode pod cfg c n (c == 0) (c == numChunks - 1) cfg.numNodes
          { (procCorePod pod scal cfg c n cfg.rootRank (st n cfg.rootRank)).1 with
            gatheredModes := gatheredAt pod scal cfg c n
            numSnaps := numSnapsAt cfg c n }).1 := by
  simp only [chunkStep, if_pos rfl]
  rfl

theorem chunkStep_trace {α : Type} (pod : Pod α) (scal : α → ℚ → α)
    (cfg : Cfg α) (numChunks c : ℕ) (st : StateMap α) :
    (chunkStep pod scal cfg numChunks c st).2
      = ((List.range cfg.numNodes).flatMap fun n =>
          (List.range cfg.sizeProc).map fun j => procLocalEventAt pod cfg c n j) ++
        ((List.range cfg.numNodes).map fun n =>
          (podOnNode pod cfg c n (c == 0) (c == numChunks - 1) cfg.numNodes
            { (procCorePod pod scal cfg c n cfg.rootRank (st n cfg.rootRank)).1 with
              gatheredModes := gatheredAt pod scal cfg c n
              numSnaps := numSnapsAt cfg c n }).2) := by
  simp only [chunkStep, if_pos rfl]
  rfl

theorem podOnNode_true_fst {α : Type} (pod : Pod α) (cfg : Cfg α)
    (c n : ℕ) (isLast : Bool) (srg : ℕ) (r : RState α) :
    (podOnNode pod cfg c n true isLast srg r).1 =
      { r with
        modes := (pod (.single r.gatheredModes) r.numSnaps cfg.params
          cfg.orthTol false false).1
        svals := (pod (.single r.gatheredModes) r.numSnaps cfg.params
          cfg.orthTol false false).2
        maxLocalModes := max r.maxLocalModes (pod (.single r.gatheredModes)
          r.numSnaps cfg.params cfg.orthTol false false).1.length
        maxVectorsBeforePod :=
          max r.maxVectorsBeforePod r.gatheredModes.length
        totalNumSnapshots := r.totalNumSnapshots + r.numSnaps } := rfl

theorem podOnNode_false_fst {α : Type} (pod : Pod α) (cfg : Cfg α)
    (c n : ℕ) (isLast : Bool) (srg : ℕ) (r : RState α) :
    (podOnNode pod cfg c n false isLast srg r).1 =
      { r with
        modes := (pod (.withPrior r.modes r.svals r.gatheredModes)
          (r.totalNumSnapshots + r.numSnaps) cfg.params
          (if isLast && (srg == 1) then cfg.finalOrthTol else cfg.orthTol)
          cfg.incrementalGramian (isLast && (srg == 1))).1
        svals := (pod (.withPrior r.modes r.svals r.gatheredModes)
          (r.totalNumSnapshots + r.numSnaps) cfg.params
          (if isLast && (srg == 1) then cfg.finalOrthTol else cfg.orthTol)
          cfg.incrementalGramian (isLast && (srg == 1))).2
        maxLocalModes := max r.maxLocalModes
          ((pod (.withPrior r.modes r.svals r.gatheredModes)
            (r.totalNumSnapshots + r.numSnaps) cfg.params
            (if isLast && (srg == 1) then cfg.finalOrthTol else cfg.orthTol)
            cfg.incrementalGramian (isLast && (srg == 1))).1.length)
        maxVectorsBeforePod := max r.maxVectorsBeforePod
          (r.modes.length + r.gatheredModes.length)
        totalNumSnapshots := r.totalNumSnapshots + r.numSnaps } := rfl

theorem runChunks_root_char {α : Type} (pod : Pod α) (scal : α → ℚ → α)
    (cfg : Cfg α) (numChunks : ℕ) :
    ∀ c n,
      ((runChunksUpTo pod scal cfg numChunks (c + 1)).1 n cfg.rootRank).modes
        = (nodeStateAt pod scal cfg numChunks n c).1 ∧
      ((runChunksUpTo pod scal cfg numChunks (c + 1)).1 n cfg.rootRank).svals
        = (nodeStateAt pod scal cfg numChunks n c).2.1 ∧
      ((runChunksUpTo pod scal cfg numChunks (c + 1)).1 n
          cfg.rootRank).totalNumSnapshots
        = (nodeStateAt pod scal cfg numChunks n c).2.2 ∧
      ((runChunksUpTo pod scal cfg numChunks (c + 1)).1 n
          cfg.rootRank).gatheredModes
        = gatheredAt pod scal cfg c n ∧
      ((runChunksUpTo pod scal cfg numChunks (c + 1)).1 n cfg.rootRank).numSnaps
        = numSnapsAt cfg c n := by
  intro c
  induction c with
  | zero =>
    intro n
    have h1 : (runChunksUpTo pod scal cfg numChunks 1).1
        = (chunkStep pod scal cfg numChunks 0
            (runChunksUpTo pod scal cfg numChunks 0).1).1 := rfl
    rw [h1, chunkStep_root]
    rw [show ((0 : ℕ) == 0) = true from rfl]
    rw [podOnNode_true_fst]
    simp [runChunksUpTo, procCorePod_fst, RState.init, nodeStateAt]
  | succ c ih =>
    intro n
    obtain ⟨hm, hs, ht, _, _⟩ := ih n
    have h1 : (runChunksUpTo pod scal cfg numChunks (c + 2)).1
        = (chunkStep pod scal cfg numChunks (c + 1)
            (runChunksUpTo pod scal cfg numChunks (c + 1)).1).1 := rfl
    rw [h1, chunkStep_root]
    rw [show ((c + 1 : ℕ) == 0) = false from rfl]
    rw [podOnNode_false_fst]
    simp only [procCorePod_fst]
    refine ⟨?_, ?_, ?_, ?_, ?_⟩ <;>
      simp [hm, hs, ht, nodeStateAt]

theorem podOnNode_true_snd {α : Type} (pod : Pod α) (cfg : Cfg α)
    (c n : ℕ) (isLast : Bool) (srg : ℕ) (r : RState α) :
    (podOnNode pod cfg c n true isLast srg r).2 =
      { stage := .nodeMerge c n
        inputs := .single r.gatheredModes
        numSnapsInLeafs := r.numSnaps
        params := cfg.params
        orthTol := cfg.orthTol
        incrementalGramian := false
        rootOfTree := false
        root := cfg.rootRank
        outModes := (pod (.single r.gatheredModes) r.numSnaps cfg.params
          cfg.orthTol false false).1
        outSvals := (pod (.single r.gatheredModes) r.numSnaps cfg.params
          cfg.orthTol false false).2 } := rfl

theorem podOnNode_false_snd {α : Type} (pod : Pod α) (cfg : Cfg α)
    (c n : ℕ) (isLast : Bool) (srg : ℕ) (r : RState α) :
    (podOnNode pod cfg c n false isLast srg r).2 =
      { stage := .nodeMerge c n
        inputs := .withPrior r.modes r.svals r.gatheredModes
        numSnapsInLeafs := r.totalNumSnapshots + r.numSnaps
        params := cfg.params
        orthTol := if isLast && (srg == 1) then cfg.finalOrthTol else cfg.orthTol
        incrementalGramian := cfg.incrementalGramian
        rootOfTree := isLast && (srg == 1)
        root := cfg.rootRank
        outModes := (pod (.withPrior r.modes r.svals r.gatheredModes)
          (r.totalNumSnapshots + r.numSnaps) cfg.params
          (if isLast && (srg == 1) then cfg.finalOrthTol else cfg.orthTol)
          cfg.incrementalGramian (isLast && (srg == 1))).1
        outSvals := (pod (.withPrior r.modes r.svals r.gatheredModes)
          (r.totalNumSnapshots + r.numSnaps) cfg.params
          (if isLast && (srg == 1) then cfg.finalOrthTol else cfg.orthTol)
          cfg.incrementalGramian (isLast && (srg == 1))).2 } := rfl

theorem runChunks_trace_char {α : Type} (pod : Pod α) (scal : α → ℚ → α)
    (cfg : Cfg α) (numChunks : ℕ) :
    ∀ c, (runChunksUpTo pod scal cfg numChunks c).2
      = (List.range c).flatMap (chunkTraceAt pod scal cfg numChunks) := by
  intro c
  induction c with
  | zero => rfl
  | succ c ih =>
    have h1 : (runChunksUpTo pod scal cfg numChunks (c + 1)).2
        = (runChunksUpTo pod scal cfg numChunks c).2
          ++ (chunkStep pod scal cfg numChunks c
              (runChunksUpTo pod scal cfg numChunks c).1).2 := rfl
    rw [h1, ih, chunkStep_trace, List.range_succ, List.flatMap_append,
      List.flatMap_cons, List.flatMap_nil, List.append_nil]
    congr 1
    unfold chunkTraceAt
    congr 1
    apply List.map_congr_left
    intro n _
    match c with
    | 0 =>
      rw [show ((0 : ℕ) == 0) = true from rfl, podOnNode_true_snd]
      simp [runChunksUpTo, procCorePod_fst, RState.init, nodeMergeEventAt,
        nodeStateAt]
    | c' + 1 =>
      obtain ⟨hm, hs, ht, _, _⟩ := runChunks_root_char pod scal cfg numChunks c' n
      rw [show ((c' + 1 : ℕ) == 0) = false from rfl, podOnNode_false_snd]
      simp only [procCorePod_fst]
      simp [hm, hs, ht, nodeMergeEventAt, nodeStateAt]

theorem treeLevel_events {α : Type} (pod : Pod α) (scal : α → ℚ → α)
    (cfg : Cfg α) (orthTol : ℚ) (isRoot : Bool) (level : ℕ) :
    ∀ xs (e : PodEvent α),
      e ∈ (treeLevel pod scal cfg orthTol isRoot level xs).2 →
      e.stage = .treeMerge level ∧ e.orthTol = orthTol ∧
      e.incrementalGramian = cfg.incrementalGramian ∧
      e.rootOfTree = isRoot ∧ e.root = cfg.rootRank
  | [], _, he => absurd he (List.not_mem_nil _)
  | [x], _, he => absurd he (List.not_mem_nil _)
  | x :: y :: rest, e, he => by
    simp only [treeLevel] at he
    rcases List.mem_cons.mp he with rfl | he
    · exact ⟨rfl, rfl, rfl, rfl, rfl⟩
    · exact treeLevel_events pod scal cfg orthTol isRoot level rest e he

theorem treeLevel_fst_length {α : Type} (pod : Pod α) (scal : α → ℚ → α)
    (cfg : Cfg α) (orthTol : ℚ) (isRoot : Bool) (level : ℕ) :
    ∀ xs : List (NodeSt α),
      (treeLevel pod scal cfg orthTol isRoot level xs).1.length ≤ xs.length
  | [] => le_refl _
  | [x] => le_refl _
  | x :: y :: rest => by
    simp only [treeLevel, List.length_cons]
    have := treeLevel_fst_length pod scal cfg orthTol isRoot level rest
    omega

theorem treeLevel_fst_length_lt {α : Type} (pod : Pod α) (scal : α → ℚ → α)
    (cfg : Cfg α) (orthTol : ℚ) (isRoot : Bool) (level : ℕ) :
    ∀ xs : List (NodeSt α), 2 ≤ xs.length →
      (treeLevel pod scal cfg orthTol isRoot level xs).1.length < xs.length
  | [], h => by simp at h
  | [x], h => by simp at h
  | x :: y :: rest, _ => by
    simp only [treeLevel, List.length_cons]
    have := treeLevel_fst_length pod scal cfg orthTol isRoot level rest
    omega

theorem treeLevel_totals {α : Type} (pod : Pod α) (scal : α → ℚ → α)
    (cfg : Cfg α) (orthTol : ℚ) (isRoot : Bool) (level : ℕ) :
    ∀ xs : List (NodeSt α),
      (((treeLevel pod scal cfg orthTol isRoot level xs).1).map NodeSt.total).sum
        = (xs.map NodeSt.total).sum
  | [] => rfl
  | [x] => rfl
  | x :: y :: rest => by
    simp only [treeLevel, List.map_cons, List.sum_cons]
    rw [treeLevel_totals pod scal cfg orthTol isRoot level rest]
    omega

theorem treeLevel_fst_length_eq {α : Type} (pod : Pod α) (scal : α → ℚ → α)
    (cfg : Cfg α) (orthTol : ℚ) (isRoot : Bool) (level : ℕ) :
    ∀ xs : List (NodeSt α),
      (treeLevel pod scal cfg orthTol isRoot level xs).1.length
        = (xs.length + 1) / 2
  | [] => by simp [treeLevel]
  | [x] => by simp [treeLevel]
  | x :: y :: rest => by
    simp only [treeLevel, List.length_cons]
    rw [treeLevel_fst_length_eq pod scal cfg orthTol isRoot level rest]
    omega

theorem treeLevel_pair_snd {α : Type} (pod : Pod α) (scal : α → ℚ → α)
    (cfg : Cfg α) (orthTol : ℚ) (isRoot : Bool) (level : ℕ) (x y : NodeSt α) :
    ∃ ev, (treeLevel pod scal cfg orthTol isRoot level [x, y]).2 = [ev] :=
  ⟨_, rfl⟩

theorem treeReduce_nil_of_small {α : Type} (pod : Pod α) (scal : α → ℚ → α)
    (cfg : Cfg α) (orthTol : ℚ) (lastHapod : Bool) :
    ∀ (fuel level : ℕ) (xs : List (NodeSt α)), xs.length ≤ 1 →
      (treeReduce pod scal cfg orthTol lastHapod fuel level xs).2 = []
  | 0, _, _, _ => rfl
  | fuel + 1, level, xs, h => by
    rw [treeReduce, if_pos h]

theorem treeReduce_step {α : Type} (pod : Pod α) (scal : α → ℚ → α)
    (cfg : Cfg α) (orthTol : ℚ) (lastHapod : Bool) (fuel level : ℕ)
    (xs : List (NodeSt α)) (h : ¬ xs.length ≤ 1) :
    treeReduce pod scal cfg orthTol lastHapod (fuel + 1) level xs
      = ((treeReduce pod scal cfg orthTol lastHapod fuel (level + 1)
          (treeLevel pod scal cfg orthTol (lastHapod && (xs.length == 2))
            level xs).1).1,
         (treeLevel pod scal cfg orthTol (lastHapod && (xs.length == 2))
            level xs).2
           ++ (treeReduce pod scal cfg orthTol lastHapod fuel (level + 1)
               (treeLevel pod scal cfg orthTol (lastHapod && (xs.length == 2))
                 level xs).1).2) := by
  rw [treeReduce, if_neg h]

/-- With `last_hapod = true` and at least two participants, the tree reduction
performs exactly one merge flagged as the root of the whole tree; it uses the
orthogonality tolerance passed to the reduction. -/
theorem treeReduce_root_event {α : Type} (pod : Pod α) (scal : α → ℚ → α)
    (cfg : Cfg α) (orthTol : ℚ) :
    ∀ (fuel level : ℕ) (xs : List (NodeSt α)),
      2 ≤ xs.length → xs.length ≤ fuel + 1 →
      ∃ e ∈ (treeReduce pod scal cfg orthTol true fuel level xs).2,
        e.rootOfTree = true ∧ e.orthTol = orthTol ∧
        (∃ l, e.stage = .treeMerge l) ∧
        ∀ e' ∈ (treeReduce pod scal cfg orthTol true fuel level xs).2,
          e'.rootOfTree = true → e' = e
  | 0, _, _, h2, hf => by omega
  | fuel + 1, level, xs, h2, hf => by
    rw [treeReduce_step pod scal cfg orthTol true fuel level xs (by omega)]
    by_cases hx2 : xs.length = 2
    · obtain ⟨x, y, rfl⟩ := List.length_eq_two.mp hx2
      have hisroot : (true && ((x :: y :: []).length == 2)) = true := rfl
      rw [hisroot]
      obtain ⟨ev, hev⟩ := treeLevel_pair_snd pod scal cfg orthTol true level x y
      have hrest : (treeReduce pod scal cfg orthTol true fuel (level + 1)
          (treeLevel pod scal cfg orthTol true level [x, y]).1).2 = [] := by
        apply treeReduce_nil_of_small
        rw [treeLevel_fst_length_eq]
        simp
      have hprops := treeLevel_events pod scal cfg orthTol true level [x, y] ev
        (by rw [hev]; exact List.mem_cons_self _ _)
      refine ⟨ev, ?_, hprops.2.2.2.1, hprops.2.1, ⟨level, hprops.1⟩, ?_⟩
      · rw [hev, hrest]
        exact List.mem_append.mpr (Or.inl (List.mem_cons_self _ _))
      · intro e' he' _
        rw [hev, hrest] at he'
        rcases List.mem_append.mp he' with he' | he'
        · exact (List.mem_singleton.mp he')
        · exact absurd he' (List.not_mem_nil _)
    · have hisroot : (true && (xs.length == 2)) = false := by
        simp [beq_eq_false_iff_ne.mpr hx2]
      rw [hisroot]
      have hlen := treeLevel_fst_length_eq pod scal cfg orthTol false level xs
      obtain ⟨e, he, hrt, hot, hst, huniq⟩ :=
        treeReduce_root_event pod scal cfg orthTol fuel (level + 1)
          (treeLevel pod scal cfg orthTol false level xs).1
          (by omega) (by omega)
      refine ⟨e, List.mem_append.mpr (Or.inr he), hrt, hot, hst, ?_⟩
      intro e' he' hrt'
      rcases List.mem_append.mp he' with he' | he'
      · have := (treeLevel_events pod scal cfg orthTol false level xs e'
          he').2.2.2.1
        rw [hrt'] at this
        exact absurd this (by simp)
      · exact huniq e' he' hrt'

theorem treeReduce_events {α : Type} (pod : Pod α) (scal : α → ℚ → α)
    (cfg : Cfg α) (orthTol : ℚ) (lastHapod : Bool) :
    ∀ (fuel level : ℕ) (xs : List (NodeSt α)) (e : PodEvent α),
      e ∈ (treeReduce pod scal cfg orthTol lastHapod fuel level xs).2 →
      (∃ l, e.stage = .treeMerge l) ∧ e.orthTol = orthTol ∧
      e.incrementalGramian = cfg.incrementalGramian ∧ e.root = cfg.rootRank
  | 0, _, _, _, he => absurd he (List.not_mem_nil _)
  | fuel + 1, level, xs, e, he => by
    rw [treeReduce] at he
    split_ifs at he with h1
    · exact absurd he (List.not_mem_nil _)
    · rcases List.mem_append.mp he with he | he
      · obtain ⟨h, ht, hi, _, hr⟩ := treeLevel_events pod scal cfg orthTol
          (lastHapod && (xs.length == 2)) level xs e he
        exact ⟨⟨level, h⟩, ht, hi, hr⟩
      · exact treeReduce_events pod scal cfg orthTol lastHapod fuel (level + 1) _ e he

theorem headD_total_of_small {α : Type} :
    ∀ xs : List (NodeSt α), xs.length ≤ 1 →
      (xs.headD ⟨[], [], 0⟩).total = (xs.map NodeSt.total).sum
  | [], _ => rfl
  | [x], _ => by simp
  | _ :: _ :: _, h => by simp at h

theorem treeReduce_total {α : Type} (pod : Pod α) (scal : α → ℚ → α)
    (cfg : Cfg α) (orthTol : ℚ) (lastHapod : Bool) :
    ∀ (fuel level : ℕ) (xs : List (NodeSt α)), xs.length ≤ fuel + 1 →
      (treeReduce pod scal cfg orthTol lastHapod fuel level xs).1.total
        = (xs.map NodeSt.total).sum
  | 0, _, xs, h => by
    rw [treeReduce]
    exact headD_total_of_small xs (by omega)
  | fuel + 1, level, xs, h => by
    rw [treeReduce]
    split_ifs with h1
    · exact headD_total_of_small xs h1
    · rw [treeReduce_total pod scal cfg orthTol lastHapod fuel (level + 1) _ ?_]
      · exact treeLevel_totals pod scal cfg orthTol
          (lastHapod && (xs.length == 2)) level xs
      · have h2 := treeLevel_fst_length_lt pod scal cfg orthTol
          (lastHapod && (xs.length == 2)) level xs (by omega)
        omega

/-! ### Snapshot-count invariants -/

theorem chunkStep_total_root {α : Type} (pod : Pod α) (scal : α → ℚ → α)
    (cfg : Cfg α) (numChunks c : ℕ) (st : StateMap α) (n : ℕ) :
    ((chunkStep pod scal cfg numChunks c st).1 n cfg.rootRank).totalNumSnapshots
      = (st n cfg.rootRank).totalNumSnapshots + numSnapsAt cfg c n := by
  rw [chunkStep_root]
  cases hb : (c == 0 : Bool)
  · rw [podOnNode_false_fst]; simp [procCorePod_fst]
  · rw [podOnNode_true_fst]; simp [procCorePod_fst]

theorem chunkStep_total_nonroot {α : Type} (pod : Pod α) (scal : α → ℚ → α)
    (cfg : Cfg α) (numChunks c : ℕ) (st : StateMap α) {n j : ℕ}
    (h : j ≠ cfg.rootRank) :
    ((chunkStep pod scal cfg numChunks c st).1 n j).totalNumSnapshots
      = (st n j).totalNumSnapshots := by
  rw [chunkStep_nonroot pod scal cfg numChunks c st h, procCorePod_fst]

theorem runChunks_total_root {α : Type} (pod : Pod α) (scal : α → ℚ → α)
    (cfg : Cfg α) (numChunks : ℕ) :
    ∀ c n, ((runChunksUpTo pod scal cfg numChunks c).1 n
        cfg.rootRank).totalNumSnapshots
      = sumOver c fun k => numSnapsAt cfg k n := by
  intro c
  induction c with
  | zero => intro n; rfl
  | succ c ih =>
    intro n
    have h1 : (runChunksUpTo pod scal cfg numChunks (c + 1)).1
        = (chunkStep pod scal cfg numChunks c
            (runChunksUpTo pod scal cfg numChunks c).1).1 := rfl
    rw [h1, chunkStep_total_root, ih, sumOver_succ]

theorem runChunks_total_nonroot {α : Type} (pod : Pod α) (scal : α → ℚ → α)
    (cfg : Cfg α) (numChunks : ℕ) {j : ℕ} (h : j ≠ cfg.rootRank) :
    ∀ c n, ((runChunksUpTo pod scal cfg numChunks c).1 n j).totalNumSnapshots
      = 0 := by
  intro c
  induction c with
  | zero => intro n; rfl
  | succ c ih =>
    intro n
    have h1 : (runChunksUpTo pod scal cfg numChunks (c + 1)).1
        = (chunkStep pod scal cfg numChunks c
            (runChunksUpTo pod scal cfg numChunks c).1).1 := rfl
    rw [h1, chunkStep_total_nonroot pod scal cfg numChunks c _ h, ih]

theorem mem_worldRanks {α : Type} (cfg : Cfg α) (n j : ℕ) :
    (n, j) ∈ worldRanks cfg ↔ n < cfg.numNodes ∧ j < cfg.sizeProc := by
  simp [worldRanks, List.mem_flatMap]

theorem rootRank_lt {α : Type} (cfg : Cfg α) (hP : 0 < cfg.sizeProc) :
    cfg.rootRank < cfg.sizeProc :=
  Nat.mod_lt _ hP

theorem finalHapod_fst_root {α : Type} (pod : Pod α) (scal : α → ℚ → α)
    (cfg : Cfg α) (st : StateMap α) :
    ((finalHapod pod scal cfg st).1 0 cfg.rootRank).totalNumSnapshots
      = sumOver cfg.numNodes fun n => (st n cfg.rootRank).totalNumSnapshots := by
  simp only [finalHapod]
  rw [if_pos (show True ∧ True from ⟨trivial, trivial⟩)]
  simp only [binary_tree_hapod_over_ranks]
  rw [treeReduce_total pod scal cfg cfg.finalOrthTol true _ 0 _ (Nat.le_succ _)]
  rw [List.map_map]
  rfl

theorem finalHapod_fst_other {α : Type} (pod : Pod α) (scal : α → ℚ → α)
    (cfg : Cfg α) (st : StateMap α) {n j : ℕ} (h : ¬(n = 0 ∧ j = cfg.rootRank)) :
    (finalHapod pod scal cfg st).1 n j = st n j := by
  show (if n = 0 ∧ j = cfg.rootRank then _ else _) = _
  rw [if_neg h]

/-! ### C3: `total_num_snapshots` is a monotone sum -/

/-- **C3** For every slot, `total_num_snapshots` is non-decreasing across chunk
iterations (on the slot's group root it is only ever incremented by the
gathered per-chunk snapshot count `num_snaps`, on every other rank it stays
unchanged), and at the end of the run the reported value equals the sum of the
vector counts fed in across all processes of all nodes — a sum, not a max. -/
theorem total_num_snapshots_spec {α : Type} (pod : Pod α) (scal : α → ℚ → α)
    (cfg : Cfg α) (numChunks : ℕ) (hN : 0 < cfg.numNodes)
    (hP : 0 < cfg.sizeProc) :
    (∀ c n, ((runChunksUpTo pod scal cfg numChunks (c + 1)).1 n
          cfg.rootRank).totalNumSnapshots
        = ((runChunksUpTo pod scal cfg numChunks c).1 n
            cfg.rootRank).totalNumSnapshots + numSnapsAt cfg c n) ∧
    (∀ c n j, j ≠ cfg.rootRank →
      ((runChunksUpTo pod scal cfg numChunks (c + 1)).1 n j).totalNumSnapshots
        = ((runChunksUpTo pod scal cfg numChunks c).1 n j).totalNumSnapshots) ∧
    (∀ c c', c ≤ c' → ∀ n j,
      ((runChunksUpTo pod scal cfg numChunks c).1 n j).totalNumSnapshots
        ≤ ((runChunksUpTo pod scal cfg numChunks c').1 n j).totalNumSnapshots) ∧
    (gatherMaxReport cfg
        (binary_tree_hapod_run pod scal cfg numChunks).1).totalNumSnapshots
      = sumOver cfg.numNodes fun n => sumOver numChunks fun c =>
          sumOver cfg.sizeProc fun j => (cfg.vecs c n j).length := by
  have hroot := runChunks_total_root pod scal cfg numChunks
  have hstep : ∀ c n, ((runChunksUpTo pod scal cfg numChunks (c + 1)).1 n
      cfg.rootRank).totalNumSnapshots
      = ((runChunksUpTo pod scal cfg numChunks c).1 n
          cfg.rootRank).totalNumSnapshots + numSnapsAt cfg c n := by
    intro c n
    exact chunkStep_total_root pod scal cfg numChunks c _ n
  have hoff : ∀ c n j, j ≠ cfg.rootRank →
      ((runChunksUpTo pod scal cfg numChunks (c + 1)).1 n j).totalNumSnapshots
      = ((runChunksUpTo pod scal cfg numChunks c).1 n j).totalNumSnapshots := by
    intro c n j hj
    exact chunkStep_total_nonroot pod scal cfg numChunks c _ hj
  refine ⟨hstep, hoff, ?_, ?_⟩
  · intro c c' hcc n j
    induction c' with
    | zero =>
      obtain rfl : c = 0 := Nat.le_zero.mp hcc
      exact le_refl _
    | succ c' ih =>
      by_cases hce : c = c' + 1
      · subst hce; exact le_refl _
      · refine le_trans (ih (by omega)) ?_
        by_cases hj : j = cfg.rootRank
        · subst hj; rw [hstep]; omega
        · rw [hoff _ _ _ hj]
  · -- the reported value: max over the world of the per-rank totals
    have hG : ((finalHapod pod scal cfg
        (runChunksUpTo pod scal cfg numChunks numChunks).1).1 0
          cfg.rootRank).totalNumSnapshots
        = sumOver cfg.numNodes fun n => sumOver numChunks fun c =>
            numSnapsAt cfg c n := by
      rw [finalHapod_fst_root]
      unfold sumOver
      congr 1
      apply List.map_congr_left
      intro n _
      rw [hroot numChunks n]
      rfl
    have hle : ∀ n j, n < cfg.numNodes → j < cfg.sizeProc →
        ((finalHapod pod scal cfg
          (runChunksUpTo pod scal cfg numChunks numChunks).1).1 n
            j).totalNumSnapshots
        ≤ sumOver cfg.numNodes fun n => sumOver numChunks fun c =>
            numSnapsAt cfg c n := by
      intro n j hn hj
      by_cases h0 : n = 0 ∧ j = cfg.rootRank
      · obtain ⟨rfl, rfl⟩ := h0
        rw [hG]
      · rw [finalHapod_fst_other pod scal cfg _ h0]
        by_cases hjr : j = cfg.rootRank
        · subst hjr
          rw [hroot numChunks n]
          exact le_sumOver (fun m => sumOver numChunks fun c => numSnapsAt cfg c m) hn
        · rw [runChunks_total_nonroot pod scal cfg numChunks hjr]
          exact Nat.zero_le _
    show listMax _ = _
    apply le_antisymm
    · apply listMax_le
      intro a ha
      obtain ⟨p, hp, rfl⟩ := List.mem_map.mp ha
      obtain ⟨hn, hj⟩ := (mem_worldRanks cfg p.1 p.2).mp (by
        have : (p.1, p.2) = p := rfl
        rw [this]; exact hp)
      exact hle p.1 p.2 hn hj
    · have hmem : ((0 : ℕ), cfg.rootRank) ∈ worldRanks cfg :=
        (mem_worldRanks cfg 0 cfg.rootRank).mpr ⟨hN, rootRank_lt cfg hP⟩
      refine le_trans (le_of_eq hG.symm) (le_listMax ?_)
      exact List.mem_map.mpr ⟨(0, cfg.rootRank), hmem, rfl⟩

theorem total_num_snapshots_spec_witness :
    (gatherMaxReport cfgW (binary_tree_hapod_run podW scalW cfgW 2).1).totalNumSnapshots
      = sumOver cfgW.numNodes fun n => sumOver 2 fun c =>
          sumOver cfgW.sizeProc fun j => (cfgW.vecs c n j).length :=
  (total_num_snapshots_spec podW scalW cfgW 2 (by decide) (by decide)).2.2.2

/-! ### Trace decomposition helpers -/

theorem run_trace_split {α : Type} (pod : Pod α) (scal : α → ℚ → α)
    (cfg : Cfg α) (numChunks : ℕ) :
    (binary_tree_hapod_run pod scal cfg numChunks).2
      = (runChunksUpTo pod scal cfg numChunks numChunks).2
        ++ (finalHapod pod scal cfg
            (runChunksUpTo pod scal cfg numChunks numChunks).1).2 := rfl

theorem finalHapod_snd {α : Type} (pod : Pod α) (scal : α → ℚ → α)
    (cfg : Cfg α) (st : StateMap α) :
    (finalHapod pod scal cfg st).2
      = (treeReduce pod scal cfg cfg.finalOrthTol true
          ((List.range cfg.numNodes).map fun n =>
            NodeSt.mk (st n cfg.rootRank).modes (st n cfg.rootRank).svals
              (st n cfg.rootRank).totalNumSnapshots).length 0
          ((List.range cfg.numNodes).map fun n =>
            NodeSt.mk (st n cfg.rootRank).modes (st n cfg.rootRank).svals
              (st n cfg.rootRank).totalNumSnapshots)).2 := rfl

theorem trace_succ {α : Type} (pod : Pod α) (scal : α → ℚ → α)
    (cfg : Cfg α) (numChunks c : ℕ) :
    (runChunksUpTo pod scal cfg numChunks (c + 1)).2
      = (runChunksUpTo pod scal cfg numChunks c).2
        ++ chunkTraceAt pod scal cfg numChunks c := by
  rw [runChunks_trace_char, runChunks_trace_char, List.range_succ,
    List.flatMap_append, List.flatMap_cons, List.flatMap_nil, List.append_nil]

theorem mem_chunkTraceAt {α : Type} (pod : Pod α) (scal : α → ℚ → α)
    (cfg : Cfg α) (numChunks c : ℕ) (e : PodEvent α)
    (he : e ∈ chunkTraceAt pod scal cfg numChunks c) :
    (∃ n j, n < cfg.numNodes ∧ j < cfg.sizeProc
       ∧ e = procLocalEventAt pod cfg c n j) ∨
    (∃ n, n < cfg.numNodes ∧ e = nodeMergeEventAt pod scal cfg numChunks n c) := by
  unfold chunkTraceAt at he
  rcases List.mem_append.mp he with he | he
  · obtain ⟨n, hn, he⟩ := List.mem_flatMap.mp he
    obtain ⟨j, hj, rfl⟩ := List.mem_map.mp he
    exact Or.inl ⟨n, j, List.mem_range.mp hn, List.mem_range.mp hj, rfl⟩
  · obtain ⟨n, hn, rfl⟩ := List.mem_map.mp he
    exact Or.inr ⟨n, List.mem_range.mp hn, rfl⟩

theorem procLocalEventAt_mem {α : Type} (pod : Pod α) (scal : α → ℚ → α)
    (cfg : Cfg α) (numChunks c n j : ℕ) (hn : n < cfg.numNodes)
    (hj : j < cfg.sizeProc) :
    procLocalEventAt pod cfg c n j ∈ chunkTraceAt pod scal cfg numChunks c := by
  unfold chunkTraceAt
  refine List.mem_append.mpr (Or.inl ?_)
  exact List.mem_flatMap.mpr ⟨n, List.mem_range.mpr hn,
    List.mem_map.mpr ⟨j, List.mem_range.mpr hj, rfl⟩⟩

theorem nodeMergeEventAt_mem {α : Type} (pod : Pod α) (scal : α → ℚ → α)
    (cfg : Cfg α) (numChunks c n : ℕ) (hn : n < cfg.numNodes) :
    nodeMergeEventAt pod scal cfg numChunks n c
      ∈ chunkTraceAt pod scal cfg numChunks c := by
  unfold chunkTraceAt
  refine List.mem_append.mpr (Or.inr ?_)
  exact List.mem_map.mpr ⟨n, List.mem_range.mpr hn, rfl⟩

/-- Membership in the full run trace decomposes into the three invocation
shapes. -/
theorem mem_run_trace {α : Type} (pod : Pod α) (scal : α → ℚ → α)
    (cfg : Cfg α) (numChunks : ℕ) (e : PodEvent α)
    (he : e ∈ (binary_tree_hapod_run pod scal cfg numChunks).2) :
    (∃ c n j, c < numChunks ∧ n < cfg.numNodes ∧ j < cfg.sizeProc
       ∧ e = procLocalEventAt pod cfg c n j) ∨
    (∃ c n, c < numChunks ∧ n < cfg.numNodes
       ∧ e = nodeMergeEventAt pod scal cfg numChunks n c) ∨
    ((∃ l, e.stage = .treeMerge l) ∧ e.orthTol = cfg.finalOrthTol ∧
      e.incrementalGramian = cfg.incrementalGramian ∧ e.root = cfg.rootRank) := by
  rw [run_trace_split] at he
  rcases List.mem_append.mp he with he | he
  · rw [runChunks_trace_char] at he
    obtain ⟨c, hc, he⟩ := List.mem_flatMap.mp he
    have hc' := List.mem_range.mp hc
    rcases mem_chunkTraceAt pod scal cfg numChunks c e he with
      ⟨n, j, hn, hj, rfl⟩ | ⟨n, hn, rfl⟩
    · exact Or.inl ⟨c, n, j, hc', hn, hj, rfl⟩
    · exact Or.inr (Or.inl ⟨c, n, hc', hn, rfl⟩)
  · rw [finalHapod_snd] at he
    obtain ⟨hl, ht, hi, hr⟩ := treeReduce_events pod scal cfg cfg.finalOrthTol
      true _ 0 _ e he
    exact Or.inr (Or.inr ⟨hl, ht, hi, hr⟩)

theorem nodeMergeEventAt_stage {α : Type} (pod : Pod α) (scal : α → ℚ → α)
    (cfg : Cfg α) (numChunks n c : ℕ) :
    (nodeMergeEventAt pod scal cfg numChunks n c).stage = .nodeMerge c n := by
  cases c <;> rfl

theorem nodeMergeEventAt_root {α : Type} (pod : Pod α) (scal : α → ℚ → α)
    (cfg : Cfg α) (numChunks n c : ℕ) :
    (nodeMergeEventAt pod scal cfg numChunks n c).root = cfg.rootRank := by
  cases c <;> rfl

theorem nodeMergeEventAt_newBatch {α : Type} (pod : Pod α) (scal : α → ℚ → α)
    (cfg : Cfg α) (numChunks n c : ℕ) :
    (nodeMergeEventAt pod scal cfg numChunks n c).inputs.newBatch
      = gatheredAt pod scal cfg c n := by
  cases c <;> rfl

/-! ### C4: the stage-1 process-local POD -/

/-- **C4** For every chunk and every slot, the stage-1 process-local POD is
invoked on that process's own chunk vectors alone with a fresh Gramian
(`incremental_gramian=False`) and the regular tolerance arguments
(`r.params`, `r.orth_tol`), and its output basis — rescaled by its singular
values — is what ends up gathered onto the group root: every node-level merge
consumes exactly the concatenation over the group's ranks of the rescaled
stage-1 outputs. -/
theorem stage1_pod_spec {α : Type} (pod : Pod α) (scal : α → ℚ → α)
    (cfg : Cfg α) (numChunks : ℕ) (e : PodEvent α)
    (he : e ∈ (binary_tree_hapod_run pod scal cfg numChunks).2) :
    (∀ c n j, e.stage = .procLocal c n j →
      e.inputs = .single (cfg.vecs c n j) ∧
      e.numSnapsInLeafs = (cfg.vecs c n j).length ∧
      e.incrementalGramian = false ∧
      e.orthTol = cfg.orthTol ∧
      e.params = cfg.params ∧
      e.rootOfTree = false ∧
      e.root = cfg.rootRank ∧
      (e.outModes, e.outSvals) = stage1Out pod cfg c n j) ∧
    (∀ c n, e.stage = .nodeMerge c n →
      e.inputs.newBatch
        = (List.range cfg.sizeProc).flatMap
            (fun j => List.zipWith scal (stage1Out pod cfg c n j).1
              (stage1Out pod cfg c n j).2) ∧
      e.root = cfg.rootRank) := by
  rcases mem_run_trace pod scal cfg numChunks e he with
    ⟨c', n', j', hc, hn, hj, rfl⟩ | ⟨c', n', hc, hn, rfl⟩ | ⟨⟨l, hl⟩, _, _, _⟩
  · constructor
    · intro c n j hs
      obtain ⟨rfl, rfl, rfl⟩ : c' = c ∧ n' = n ∧ j' = j := by
        simpa [procLocalEventAt] using hs
      exact ⟨rfl, rfl, rfl, rfl, rfl, rfl, rfl, rfl⟩
    · intro c n hs
      simp [procLocalEventAt] at hs
  · constructor
    · intro c n j hs
      rw [nodeMergeEventAt_stage] at hs
      simp at hs
    · intro c n hs
      rw [nodeMergeEventAt_stage] at hs
      obtain ⟨rfl, rfl⟩ : c' = c ∧ n' = n := by simpa using hs
      exact ⟨nodeMergeEventAt_newBatch pod scal cfg numChunks n' c',
        nodeMergeEventAt_root pod scal cfg numChunks n' c'⟩
  · constructor
    · intro c n j hs
      rw [hl] at hs; simp at hs
    · intro c n hs
      rw [hl] at hs; simp at hs

/-! ### C5: the stage-2 node-level merge -/

/-- **C5** For every slot, the group root's stage-2 merge on the very first
chunk is a plain local POD over only the gathered modes (no prior basis
input) with `incremental_gramian=False`, while on every subsequent chunk it
merges the pair of the prior running modes and singular values (the state
left by the previous chunk's merge) with the newly gathered modes, with the
incremental-Gramian mode enabled exactly when the configured
`incremental_gramian` flag is set. -/
theorem node_merge_spec {α : Type} (pod : Pod α) (scal : α → ℚ → α)
    (cfg : Cfg α) (numChunks : ℕ) (e : PodEvent α)
    (he : e ∈ (binary_tree_hapod_run pod scal cfg numChunks).2)
    (c n : ℕ) (hs : e.stage = .nodeMerge c n) :
    (c = 0 →
      e.inputs = .single (gatheredAt pod scal cfg 0 n) ∧
      e.incrementalGramian = false ∧
      e.numSnapsInLeafs = numSnapsAt cfg 0 n) ∧
    (∀ c', c = c' + 1 →
      e.inputs = .withPrior (nodeStateAt pod scal cfg numChunks n c').1
        (nodeStateAt pod scal cfg numChunks n c').2.1
        (gatheredAt pod scal cfg (c' + 1) n) ∧
      e.incrementalGramian = cfg.incrementalGramian) := by
  rcases mem_run_trace pod scal cfg numChunks e he with
    ⟨c', n', j', hc, hn, hj, rfl⟩ | ⟨c', n', hc, hn, rfl⟩ | ⟨⟨l, hl⟩, _, _, _⟩
  · simp [procLocalEventAt] at hs
  · rw [nodeMergeEventAt_stage] at hs
    obtain ⟨rfl, rfl⟩ : c' = c ∧ n' = n := by simpa using hs
    constructor
    · rintro rfl
      exact ⟨rfl, rfl, rfl⟩
    · rintro c'' rfl
      exact ⟨rfl, rfl⟩
  · rw [hl] at hs; simp at hs

/-! ### C7: root-rank rotation across slots -/

/-- **C7** For every slot index `k`, the process chosen as group root for the
gather, the node-level merge, and the cross-node tree reduction of slot `k` is
the one with in-group rank `k % mpi.size_proc`: every recorded invocation of
the run names that root. -/
theorem root_rotation_spec {α : Type} (pod : Pod α) (scal : α → ℚ → α)
    (cfg : Cfg α) (numChunks : ℕ) (e : PodEvent α)
    (he : e ∈ (binary_tree_hapod_run pod scal cfg numChunks).2) :
    e.root = cfg.slot % cfg.sizeProc := by
  rcases mem_run_trace pod scal cfg numChunks e he with
    ⟨c, n, j, _, _, _, rfl⟩ | ⟨c, n, _, _, rfl⟩ | ⟨_, _, _, hr⟩
  · rfl
  · exact nodeMergeEventAt_root pod scal cfg numChunks n c
  · exact hr

/-! ### C6: which merges use `final_orth_tol` -/

/-- Counterexample to claim **C6** as stated (that every merge other than the
root of the whole tree uses `orth_tol`): in this three-node, two-chunk run there is a
cross-node tree merge that is not the tree root and whose orthogonality
tolerance differs from `orth_tol` — the source call site
(`final_hapod_in_binary_tree_hapod`) passes `orth_tol=r.final_orth_tol` for
the *whole* tree reduction, so intermediate tree merges also receive
`final_orth_tol`. -/
theorem orth_tol_claim_counterexample :
    ∃ e ∈ (binary_tree_hapod_run podW scalW cfgW 2).2,
      e.rootOfTree = false ∧ e.orthTol ≠ cfgW.orthTol := by decide

/-- **C6 (amended)** The merge that is the root of the whole tree — the
node-level merge on the last (non-first) chunk when the rank-group size is 1,
and otherwise the final merge of the cross-node tree reduction, which with at
least two nodes is the unique invocation of the run flagged
`root_of_tree=True` — is invoked with `root_of_tree=True` and uses
`final_orth_tol`; node-level merges that are not the tree root use `orth_tol`
(stage-1 PODs as well); but *all* merges inside the cross-node tree reduction
use `final_orth_tol`, because the call site passes
`orth_tol=r.final_orth_tol` for the entire tree reduction. -/
theorem nodeMergeEventAt_rootOfTree_false {α : Type} (pod : Pod α)
    (scal : α → ℚ → α) (cfg : Cfg α) (numChunks n c : ℕ)
    (h : cfg.numNodes ≠ 1) :
    (nodeMergeEventAt pod scal cfg numChunks n c).rootOfTree = false := by
  cases c with
  | zero => rfl
  | succ c' =>
    simp [nodeMergeEventAt, beq_eq_false_iff_ne.mpr h]

theorem orth_tol_usage_spec {α : Type} (pod : Pod α) (scal : α → ℚ → α)
    (cfg : Cfg α) (numChunks : ℕ) :
    (∀ e ∈ (binary_tree_hapod_run pod scal cfg numChunks).2,
      (∀ c n j, e.stage = .procLocal c n j →
        e.rootOfTree = false ∧ e.orthTol = cfg.orthTol) ∧
      (∀ c n, e.stage = .nodeMerge c n →
        (e.rootOfTree = true ↔ c ≠ 0 ∧ c = numChunks - 1 ∧ cfg.numNodes = 1) ∧
        e.orthTol = if e.rootOfTree then cfg.finalOrthTol else cfg.orthTol) ∧
      (∀ l, e.stage = .treeMerge l → e.orthTol = cfg.finalOrthTol)) ∧
    (2 ≤ cfg.numNodes →
      ∃ e ∈ (binary_tree_hapod_run pod scal cfg numChunks).2,
        (∃ l, e.stage = .treeMerge l) ∧ e.rootOfTree = true ∧
        e.orthTol = cfg.finalOrthTol ∧
        ∀ e' ∈ (binary_tree_hapod_run pod scal cfg numChunks).2,
          e'.rootOfTree = true → e' = e) := by
  constructor
  · intro e he
    rcases mem_run_trace pod scal cfg numChunks e he with
      ⟨c', n', j', hc, hn, hj, rfl⟩ | ⟨c', n', hc, hn, rfl⟩ | ⟨⟨l', hl⟩, ht, _, _⟩
    · refine ⟨fun c n j _ => ⟨rfl, rfl⟩, fun c n hs => ?_, fun l hs => ?_⟩ <;>
        simp [procLocalEventAt] at hs
    · refine ⟨fun c n j hs => ?_, fun c n hs => ?_, fun l hs => ?_⟩
      · rw [nodeMergeEventAt_stage] at hs; simp at hs
      · rw [nodeMergeEventAt_stage] at hs
        obtain ⟨rfl, rfl⟩ : c' = c ∧ n' = n := by simpa using hs
        cases c' with
        | zero => simp [nodeMergeEventAt]
        | succ c'' =>
          refine ⟨?_, rfl⟩
          simp only [nodeMergeEventAt, Bool.and_eq_true, beq_iff_eq]
          constructor
          · rintro ⟨h1, h2⟩
            exact ⟨Nat.succ_ne_zero _, h1, h2⟩
          · rintro ⟨_, h1, h2⟩
            exact ⟨h1, h2⟩
      · rw [nodeMergeEventAt_stage] at hs; simp at hs
    · refine ⟨fun c n j hs => ?_, fun c n hs => ?_, fun l hs => ht⟩ <;>
        (rw [hl] at hs; simp at hs)
  · intro hN2
    have hplen : ((List.range cfg.numNodes).map fun n =>
        NodeSt.mk ((runChunksUpTo pod scal cfg numChunks numChunks).1 n
            cfg.rootRank).modes
          ((runChunksUpTo pod scal cfg numChunks numChunks).1 n
            cfg.rootRank).svals
          ((runChunksUpTo pod scal cfg numChunks numChunks).1 n
            cfg.rootRank).totalNumSnapshots).length = cfg.numNodes := by
      simp
    obtain ⟨e, he, hrt, hot, hstage, huniq⟩ :=
      treeReduce_root_event pod scal cfg cfg.finalOrthTol
        ((List.range cfg.numNodes).map fun n =>
          NodeSt.mk ((runChunksUpTo pod scal cfg numChunks numChunks).1 n
              cfg.rootRank).modes
            ((runChunksUpTo pod scal cfg numChunks numChunks).1 n
              cfg.rootRank).svals
            ((runChunksUpTo pod scal cfg numChunks numChunks).1 n
              cfg.rootRank).totalNumSnapshots).length 0
        ((List.range cfg.numNodes).map fun n =>
          NodeSt.mk ((runChunksUpTo pod scal cfg numChunks numChunks).1 n
              cfg.rootRank).modes
            ((runChunksUpTo pod scal cfg numChunks numChunks).1 n
              cfg.rootRank).svals
            ((runChunksUpTo pod scal cfg numChunks numChunks).1 n
              cfg.rootRank).totalNumSnapshots)
        (by rw [hplen]; exact hN2) (Nat.le_succ _)
    refine ⟨e, ?_, hstage, hrt, hot, ?_⟩
    · rw [run_trace_split]
      refine List.mem_append.mpr (Or.inr ?_)
      rw [finalHapod_snd]
      exact he
    · intro e' he' hrt'
      rw [run_trace_split] at he'
      rcases List.mem_append.mp he' with he' | he'
      · rw [runChunks_trace_char] at he'
        obtain ⟨c, _, he'⟩ := List.mem_flatMap.mp he'
        rcases mem_chunkTraceAt pod scal cfg numChunks c e' he' with
          ⟨n, j, _, _, rfl⟩ | ⟨n, _, rfl⟩
        · exact absurd hrt' (by simp [procLocalEventAt])
        · rw [nodeMergeEventAt_rootOfTree_false pod scal cfg numChunks n c
            (by omega)] at hrt'
          exact absurd hrt' Bool.false_ne_true
      · rw [finalHapod_snd] at he'
        exact huniq e' he' hrt'

theorem orth_tol_usage_spec_witness :
    ((nodeMergeEventAt podW scalW cfgW 2 0 1).rootOfTree = true
      ↔ (1 : ℕ) ≠ 0 ∧ (1 : ℕ) = 2 - 1 ∧ cfgW.numNodes = 1) ∧
    ∃ e ∈ (binary_tree_hapod_run podW scalW cfgW 2).2,
      (∃ l, e.stage = .treeMerge l) ∧ e.rootOfTree = true ∧
      e.orthTol = cfgW.finalOrthTol := by
  have h := orth_tol_usage_spec podW scalW cfgW 2
  refine ⟨((h.1 (nodeMergeEventAt podW scalW cfgW 2 0 1)
    (by decide)).2.1 1 0 (by decide)).1, ?_⟩
  obtain ⟨e, he, hl, hrt, hot, _⟩ := h.2 (by decide)
  exact ⟨e, he, hl, hrt, hot⟩

theorem stage1_pod_spec_witness :
    (procLocalEventAt podW cfgW 0 0 0).inputs = .single (cfgW.vecs 0 0 0) ∧
    (procLocalEventAt podW cfgW 0 0 0).incrementalGramian = false ∧
    (procLocalEventAt podW cfgW 0 0 0).orthTol = cfgW.orthTol := by
  have h := (stage1_pod_spec podW scalW cfgW 2 (procLocalEventAt podW cfgW 0 0 0)
    (by decide)).1 0 0 0 (by decide)
  exact ⟨h.1, h.2.2.1, h.2.2.2.1⟩

theorem node_merge_spec_witness :
    (nodeMergeEventAt podW scalW cfgW 2 0 1).inputs
      = .withPrior (nodeStateAt podW scalW cfgW 2 0 0).1
        (nodeStateAt podW scalW cfgW 2 0 0).2.1
        (gatheredAt podW scalW cfgW 1 0) ∧
    (nodeMergeEventAt podW scalW cfgW 2 0 1).incrementalGramian
      = cfgW.incrementalGramian :=
  (node_merge_spec podW scalW cfgW 2 (nodeMergeEventAt podW scalW cfgW 2 0 1)
    (by decide) 1 0 (by decide)).2 0 rfl

theorem root_rotation_spec_witness :
    (procLocalEventAt podW cfgW 0 0 0).root = cfgW.slot % cfgW.sizeProc :=
  root_rotation_spec podW scalW cfgW 2 (procLocalEventAt podW cfgW 0 0 0)
    (by decide)

/-! ### Diagnostics high-water marks (C8) -/

theorem chunkStep_max_mono {α : Type} (pod : Pod α) (scal : α → ℚ → α)
    (cfg : Cfg α) (numChunks c : ℕ) (st : StateMap α) (n j : ℕ) :
    (st n j).maxVectorsBeforePod
      ≤ ((chunkStep pod scal cfg numChunks c st).1 n j).maxVectorsBeforePod ∧
    (st n j).maxLocalModes
      ≤ ((chunkStep pod scal cfg numChunks c st).1 n j).maxLocalModes := by
  by_cases hj : j = cfg.rootRank
  · subst hj
    rw [chunkStep_root]
    cases hb : (c == 0 : Bool)
    · rw [podOnNode_false_fst]
      constructor <;> simp [procCorePod_fst, le_max_iff]
    · rw [podOnNode_true_fst]
      constructor <;> simp [procCorePod_fst, le_max_iff]
  · rw [chunkStep_nonroot pod scal cfg numChunks c st hj, procCorePod_fst]
    exact ⟨le_max_left _ _, le_max_left _ _⟩

theorem runChunks_max_nonroot_succ {α : Type} (pod : Pod α) (scal : α → ℚ → α)
    (cfg : Cfg α) (numChunks c : ℕ) (st : StateMap α) {n j : ℕ}
    (hj : j ≠ cfg.rootRank) :
    ((chunkStep pod scal cfg numChunks c st).1 n j).maxVectorsBeforePod
      = max (st n j).maxVectorsBeforePod
          (procLocalEventAt pod cfg c n j).inputCount ∧
    ((chunkStep pod scal cfg numChunks c st).1 n j).maxLocalModes
      = max (st n j).maxLocalModes (procLocalEventAt pod cfg c n j).outCount := by
  rw [chunkStep_nonroot pod scal cfg numChunks c st hj, procCorePod_fst]
  exact ⟨rfl, rfl⟩

theorem runChunks_max_root_succ {α : Type} (pod : Pod α) (scal : α → ℚ → α)
    (cfg : Cfg α) (numChunks : ℕ) (c n : ℕ) :
    ((runChunksUpTo pod scal cfg numChunks (c + 1)).1 n
        cfg.rootRank).maxVectorsBeforePod
      = max (max ((runChunksUpTo pod scal cfg numChunks c).1 n
            cfg.rootRank).maxVectorsBeforePod
          (procLocalEventAt pod cfg c n cfg.rootRank).inputCount)
          ((nodeMergeEventAt pod scal cfg numChunks n c).inputCount) ∧
    ((runChunksUpTo pod scal cfg numChunks (c + 1)).1 n
        cfg.rootRank).maxLocalModes
      = max (max ((runChunksUpTo pod scal cfg numChunks c).1 n
            cfg.rootRank).maxLocalModes
          (procLocalEventAt pod cfg c n cfg.rootRank).outCount)
          ((nodeMergeEventAt pod scal cfg numChunks n c).outCount) := by
  have h1 : (runChunksUpTo pod scal cfg numChunks (c + 1)).1
      = (chunkStep pod scal cfg numChunks c
          (runChunksUpTo pod scal cfg numChunks c).1).1 := rfl
  rw [h1, chunkStep_root]
  match c with
  | 0 =>
    rw [show ((0 : ℕ) == 0) = true from rfl, podOnNode_true_fst]
    constructor <;>
      simp [procCorePod_fst, nodeMergeEventAt, procLocalEventAt,
        PodEvent.inputCount, PodEvent.outCount, PodInputs.inputCount,
        nodeStateAt, runChunksUpTo]
  | c' + 1 =>
    obtain ⟨hm, hs, ht, _, _⟩ := runChunks_root_char pod scal cfg numChunks c' n
    rw [show ((c' + 1 : ℕ) == 0) = false from rfl, podOnNode_false_fst]
    constructor <;>
      simp [procCorePod_fst, nodeMergeEventAt, procLocalEventAt,
        PodEvent.inputCount, PodEvent.outCount, PodInputs.inputCount,
        hm, hs, ht, nodeStateAt]

theorem runChunks_max_le {α : Type} (pod : Pod α) (scal : α → ℚ → α)
    (cfg : Cfg α) (numChunks : ℕ) :
    ∀ c n j, n < cfg.numNodes → j < cfg.sizeProc →
      ((runChunksUpTo pod scal cfg numChunks c).1 n j).maxVectorsBeforePod
        ≤ listMax (((runChunksUpTo pod scal cfg numChunks c).2).map
            PodEvent.inputCount) ∧
      ((runChunksUpTo pod scal cfg numChunks c).1 n j).maxLocalModes
        ≤ listMax (((runChunksUpTo pod scal cfg numChunks c).2).map
            PodEvent.outCount) := by
  intro c
  induction c with
  | zero =>
    intro n j _ _
    exact ⟨Nat.zero_le _, Nat.zero_le _⟩
  | succ c ih =>
    intro n j hn hj
    have hsplit := trace_succ pod scal cfg numChunks c
    have hPL : (procLocalEventAt pod cfg c n j).inputCount
        ≤ listMax ((chunkTraceAt pod scal cfg numChunks c).map
            PodEvent.inputCount) :=
      le_listMax (List.mem_map.mpr
        ⟨_, procLocalEventAt_mem pod scal cfg numChunks c n j hn hj, rfl⟩)
    have hPL' : (procLocalEventAt pod cfg c n j).outCount
        ≤ listMax ((chunkTraceAt pod scal cfg numChunks c).map
            PodEvent.outCount) :=
      le_listMax (List.mem_map.mpr
        ⟨_, procLocalEventAt_mem pod scal cfg numChunks c n j hn hj, rfl⟩)
    have hNM : (nodeMergeEventAt pod scal cfg numChunks n c).inputCount
        ≤ listMax ((chunkTraceAt pod scal cfg numChunks c).map
            PodEvent.inputCount) :=
      le_listMax (List.mem_map.mpr
        ⟨_, nodeMergeEventAt_mem pod scal cfg numChunks c n hn, rfl⟩)
    have hNM' : (nodeMergeEventAt pod scal cfg numChunks n c).outCount
        ≤ listMax ((chunkTraceAt pod scal cfg numChunks c).map
            PodEvent.outCount) :=
      le_listMax (List.mem_map.mpr
        ⟨_, nodeMergeEventAt_mem pod scal cfg numChunks c n hn, rfl⟩)
    obtain ⟨ih1, ih2⟩ := ih n j hn hj
    rw [hsplit, List.map_append, List.map_append, listMax_append, listMax_append]
    by_cases hjr : j = cfg.rootRank
    · subst hjr
      obtain ⟨e1, e2⟩ := runChunks_max_root_succ pod scal cfg numChunks c n
      rw [e1, e2]
      constructor
      · exact max_le (max_le (le_trans ih1 (le_max_left _ _))
          (le_trans hPL (le_max_right _ _)))
          (le_trans hNM (le_max_right _ _))
      · exact max_le (max_le (le_trans ih2 (le_max_left _ _))
          (le_trans hPL' (le_max_right _ _)))
          (le_trans hNM' (le_max_right _ _))
    · have h1 : (runChunksUpTo pod scal cfg numChunks (c + 1)).1
          = (chunkStep pod scal cfg numChunks c
              (runChunksUpTo pod scal cfg numChunks c).1).1 := rfl
      obtain ⟨e1, e2⟩ := runChunks_max_nonroot_succ pod scal cfg numChunks c
        (runChunksUpTo pod scal cfg numChunks c).1 hjr
      rw [h1, e1, e2]
      constructor
      · exact max_le (le_trans ih1 (le_max_left _ _))
          (le_trans hPL (le_max_right _ _))
      · exact max_le (le_trans ih2 (le_max_left _ _))
          (le_trans hPL' (le_max_right _ _))

theorem runChunks_max_ge {α : Type} (pod : Pod α) (scal : α → ℚ → α)
    (cfg : Cfg α) (numChunks : ℕ) (hP : 0 < cfg.sizeProc) :
    ∀ c (e : PodEvent α), e ∈ (runChunksUpTo pod scal cfg numChunks c).2 →
      ∃ n j, n < cfg.numNodes ∧ j < cfg.sizeProc ∧
        e.inputCount ≤ ((runChunksUpTo pod scal cfg numChunks c).1 n
          j).maxVectorsBeforePod ∧
        e.outCount ≤ ((runChunksUpTo pod scal cfg numChunks c).1 n
          j).maxLocalModes := by
  intro c
  induction c with
  | zero =>
    intro e he
    exact absurd he (List.not_mem_nil _)
  | succ c ih =>
    intro e he
    rw [trace_succ] at he
    have h1 : (runChunksUpTo pod scal cfg numChunks (c + 1)).1
        = (chunkStep pod scal cfg numChunks c
            (runChunksUpTo pod scal cfg numChunks c).1).1 := rfl
    rcases List.mem_append.mp he with he | he
    · obtain ⟨n, j, hn, hj, hv, hl⟩ := ih e he
      refine ⟨n, j, hn, hj, ?_, ?_⟩
      · rw [h1]
        exact le_trans hv (chunkStep_max_mono pod scal cfg numChunks c _ n j).1
      · rw [h1]
        exact le_trans hl (chunkStep_max_mono pod scal cfg numChunks c _ n j).2
    · rcases mem_chunkTraceAt pod scal cfg numChunks c e he with
        ⟨n, j, hn, hj, rfl⟩ | ⟨n, hn, rfl⟩
      · refine ⟨n, j, hn, hj, ?_, ?_⟩
        · by_cases hjr : j = cfg.rootRank
          · subst hjr
            rw [(runChunks_max_root_succ pod scal cfg numChunks c n).1]
            exact le_trans (le_max_right _ _) (le_max_left _ _)
          · rw [h1, (runChunks_max_nonroot_succ pod scal cfg numChunks c _ hjr).1]
            exact le_max_right _ _
        · by_cases hjr : j = cfg.rootRank
          · subst hjr
            rw [(runChunks_max_root_succ pod scal cfg numChunks c n).2]
            exact le_trans (le_max_right _ _) (le_max_left _ _)
          · rw [h1, (runChunks_max_nonroot_succ pod scal cfg numChunks c _ hjr).2]
            exact le_max_right _ _
      · refine ⟨n, cfg.rootRank, hn, rootRank_lt cfg hP, ?_, ?_⟩
        · rw [(runChunks_max_root_succ pod scal cfg numChunks c n).1]
          exact le_max_right _ _
        · rw [(runChunks_max_root_succ pod scal cfg numChunks c n).2]
          exact le_max_right _ _

theorem finalHapod_root_max {α : Type} (pod : Pod α) (scal : α → ℚ → α)
    (cfg : Cfg α) (st : StateMap α) :
    ((finalHapod pod scal cfg st).1 0 cfg.rootRank).maxVectorsBeforePod
      = max (st 0 cfg.rootRank).maxVectorsBeforePod
          (listMax (((finalHapod pod scal cfg st).2).map PodEvent.inputCount)) ∧
    ((finalHapod pod scal cfg st).1 0 cfg.rootRank).maxLocalModes
      = max (st 0 cfg.rootRank).maxLocalModes
          (listMax (((finalHapod pod scal cfg st).2).map PodEvent.outCount)) := by
  constructor <;>
    · simp only [finalHapod, binary_tree_hapod_over_ranks]
      rw [if_pos (show True ∧ True from ⟨trivial, trivial⟩)]

theorem finalHapod_max_mono {α : Type} (pod : Pod α) (scal : α → ℚ → α)
    (cfg : Cfg α) (st : StateMap α) (n j : ℕ) :
    (st n j).maxVectorsBeforePod
      ≤ ((finalHapod pod scal cfg st).1 n j).maxVectorsBeforePod ∧
    (st n j).maxLocalModes
      ≤ ((finalHapod pod scal cfg st).1 n j).maxLocalModes := by
  by_cases h : n = 0 ∧ j = cfg.rootRank
  · obtain ⟨rfl, rfl⟩ := h
    rw [(finalHapod_root_max pod scal cfg st).1,
      (finalHapod_root_max pod scal cfg st).2]
    exact ⟨le_max_left _ _, le_max_left _ _⟩
  · rw [finalHapod_fst_other pod scal cfg st h]
    exact ⟨le_refl _, le_refl _⟩

theorem run_report_max {α : Type} (pod : Pod α) (scal : α → ℚ → α)
    (cfg : Cfg α) (numChunks : ℕ) (hN : 0 < cfg.numNodes)
    (hP : 0 < cfg.sizeProc) :
    (gatherMaxReport cfg
        (binary_tree_hapod_run pod scal cfg numChunks).1).maxVectorsBeforePod
      = listMax (((binary_tree_hapod_run pod scal cfg numChunks).2).map
          PodEvent.inputCount) ∧
    (gatherMaxReport cfg
        (binary_tree_hapod_run pod scal cfg numChunks).1).maxLocalModes
      = listMax (((binary_tree_hapod_run pod scal cfg numChunks).2).map
          PodEvent.outCount) := by
  have hsplit := run_trace_split pod scal cfg numChunks
  have hfst : (binary_tree_hapod_run pod scal cfg numChunks).1
      = (finalHapod pod scal cfg
          (runChunksUpTo pod scal cfg numChunks numChunks).1).1 := rfl
  have hmemroot : ((0 : ℕ), cfg.rootRank) ∈ worldRanks cfg :=
    (mem_worldRanks cfg 0 cfg.rootRank).mpr ⟨hN, rootRank_lt cfg hP⟩
  constructor
  · rw [hfst, hsplit, List.map_append, listMax_append]
    apply le_antisymm
    · apply listMax_le
      intro a ha
      obtain ⟨p, hp, rfl⟩ := List.mem_map.mp ha
      obtain ⟨hn, hj⟩ := (mem_worldRanks cfg p.1 p.2).mp (by
        have hpp : (p.1, p.2) = p := rfl
        rw [hpp]; exact hp)
      by_cases h0 : p.1 = 0 ∧ p.2 = cfg.rootRank
      · obtain ⟨h1, h2⟩ := h0
        rw [h1, h2, (finalHapod_root_max pod scal cfg _).1]
        exact max_le (le_trans (runChunks_max_le pod scal cfg numChunks
          numChunks 0 cfg.rootRank hN (rootRank_lt cfg hP)).1 (le_max_left _ _))
          (le_max_right _ _)
      · rw [finalHapod_fst_other pod scal cfg _ h0]
        exact le_trans (runChunks_max_le pod scal cfg numChunks numChunks
          p.1 p.2 hn hj).1 (le_max_left _ _)
    · apply max_le <;> apply listMax_le <;> intro a ha <;>
        obtain ⟨e, he, rfl⟩ := List.mem_map.mp ha
      · obtain ⟨n, j, hn, hj, hv, _⟩ := runChunks_max_ge pod scal cfg numChunks
          hP numChunks e he
        refine le_trans hv (le_trans (finalHapod_max_mono pod scal cfg _ n j).1
          (le_listMax ?_))
        exact List.mem_map.mpr ⟨(n, j),
          (mem_worldRanks cfg n j).mpr ⟨hn, hj⟩, rfl⟩
      · refine le_trans (le_listMax (List.mem_map.mpr ⟨e, he, rfl⟩)) ?_
        refine le_trans (le_max_right
          ((runChunksUpTo pod scal cfg numChunks numChunks).1 0
            cfg.rootRank).maxVectorsBeforePod _) ?_
        rw [← (finalHapod_root_max pod scal cfg _).1]
        exact le_listMax (List.mem_map.mpr ⟨(0, cfg.rootRank), hmemroot, rfl⟩)
  · rw [hfst, hsplit, List.map_append, listMax_append]
    apply le_antisymm
    · apply listMax_le
      intro a ha
      obtain ⟨p, hp, rfl⟩ := List.mem_map.mp ha
      obtain ⟨hn, hj⟩ := (mem_worldRanks cfg p.1 p.2).mp (by
        have hpp : (p.1, p.2) = p := rfl
        rw [hpp]; exact hp)
      by_cases h0 : p.1 = 0 ∧ p.2 = cfg.rootRank
      · obtain ⟨h1, h2⟩ := h0
        rw [h1, h2, (finalHapod_root_max pod scal cfg _).2]
        exact max_le (le_trans (runChunks_max_le pod scal cfg numChunks
          numChunks 0 cfg.rootRank hN (rootRank_lt cfg hP)).2 (le_max_left _ _))
          (le_max_right _ _)
      · rw [finalHapod_fst_other pod scal cfg _ h0]
        exact le_trans (runChunks_max_le pod scal cfg numChunks numChunks
          p.1 p.2 hn hj).2 (le_max_left _ _)
    · apply max_le <;> apply listMax_le <;> intro a ha <;>
        obtain ⟨e, he, rfl⟩ := List.mem_map.mp ha
      · obtain ⟨n, j, hn, hj, _, hl⟩ := runChunks_max_ge pod scal cfg numChunks
          hP numChunks e he
        refine le_trans hl (le_trans (finalHapod_max_mono pod scal cfg _ n j).2
          (le_listMax ?_))
        exact List.mem_map.mpr ⟨(n, j),
          (mem_worldRanks cfg n j).mpr ⟨hn, hj⟩, rfl⟩
      · refine le_trans (le_listMax (List.mem_map.mpr ⟨e, he, rfl⟩)) ?_
        refine le_trans (le_max_right
          ((runChunksUpTo pod scal cfg numChunks numChunks).1 0
            cfg.rootRank).maxLocalModes _) ?_
        rw [← (finalHapod_root_max pod scal cfg _).2]
        exact le_listMax (List.mem_map.mpr ⟨(0, cfg.rootRank), hmemroot, rfl⟩)

/-- **C8** For every slot, `max_vectors_before_pod` and `max_local_modes` are
monotonically non-decreasing across every local-POD invocation (across the
chunk iterations and through the cross-node tree stage), and after the
end-of-run take-the-max gather over all processes the reported values equal
the true global maximum of, respectively, input-vector counts handed to any
single local-POD call and resulting local basis sizes, even when that maximum
occurs on a non-root process. -/
theorem diagnostics_spec {α : Type} (pod : Pod α) (scal : α → ℚ → α)
    (cfg : Cfg α) (numChunks : ℕ) (hN : 0 < cfg.numNodes)
    (hP : 0 < cfg.sizeProc) :
    (∀ c c', c ≤ c' → ∀ n j,
      ((runChunksUpTo pod scal cfg numChunks c).1 n j).maxVectorsBeforePod
        ≤ ((runChunksUpTo pod scal cfg numChunks c').1 n j).maxVectorsBeforePod ∧
      ((runChunksUpTo pod scal cfg numChunks c).1 n j).maxLocalModes
        ≤ ((runChunksUpTo pod scal cfg numChunks c').1 n j).maxLocalModes) ∧
    (∀ n j,
      ((runChunksUpTo pod scal cfg numChunks numChunks).1 n
          j).maxVectorsBeforePod
        ≤ ((binary_tree_hapod_run pod scal cfg numChunks).1 n
            j).maxVectorsBeforePod ∧
      ((runChunksUpTo pod scal cfg numChunks numChunks).1 n j).maxLocalModes
        ≤ ((binary_tree_hapod_run pod scal cfg numChunks).1 n
            j).maxLocalModes) ∧
    (gatherMaxReport cfg
        (binary_tree_hapod_run pod scal cfg numChunks).1).maxVectorsBeforePod
      = listMax (((binary_tree_hapod_run pod scal cfg numChunks).2).map
          PodEvent.inputCount) ∧
    (gatherMaxReport cfg
        (binary_tree_hapod_run pod scal cfg numChunks).1).maxLocalModes
      = listMax (((binary_tree_hapod_run pod scal cfg numChunks).2).map
          PodEvent.outCount) := by
  refine ⟨?_, ?_, (run_report_max pod scal cfg numChunks hN hP).1,
    (run_report_max pod scal cfg numChunks hN hP).2⟩
  · intro c c' hcc n j
    induction c' with
    | zero =>
      obtain rfl : c = 0 := Nat.le_zero.mp hcc
      exact ⟨le_refl _, le_refl _⟩
    | succ c' ih =>
      by_cases hce : c = c' + 1
      · subst hce; exact ⟨le_refl _, le_refl _⟩
      · obtain ⟨ih1, ih2⟩ := ih (by omega)
        have h1 : (runChunksUpTo pod scal cfg numChunks (c' + 1)).1
            = (chunkStep pod scal cfg numChunks c'
                (runChunksUpTo pod scal cfg numChunks c').1).1 := rfl
        obtain ⟨m1, m2⟩ := chunkStep_max_mono pod scal cfg numChunks c'
          (runChunksUpTo pod scal cfg numChunks c').1 n j
        rw [h1]
        exact ⟨le_trans ih1 m1, le_trans ih2 m2⟩
  · intro n j
    exact finalHapod_max_mono pod scal cfg _ n j

theorem diagnostics_spec_witness :
    (gatherMaxReport cfgW
        (binary_tree_hapod_run podW scalW cfgW 2).1).maxVectorsBeforePod
      = listMax (((binary_tree_hapod_run podW scalW cfgW 2).2).map
          PodEvent.inputCount) ∧
    (gatherMaxReport cfgW
        (binary_tree_hapod_run podW scalW cfgW 2).1).maxLocalModes
      = listMax (((binary_tree_hapod_run podW scalW cfgW 2).2).map
          PodEvent.outCount) :=
  ⟨(diagnostics_spec podW scalW cfgW 2 (by decide) (by decide)).2.2.1,
   (diagnostics_spec podW scalW cfgW 2 (by decide) (by decide)).2.2.2⟩

end HapodVerif
